import Mathlib

/-!
# Verification of the NAV multi-period comparison pipeline

Shallow embedding of the core classification / deduplication / comparison
logic of `nav_compare_multi_period.py`.  Strings are modelled through their
character lists (`String.data`); NAV values are modelled as `ℚ` (the source
works on float64, but every property below depends only on exact equality
comparisons, counting, and the order of list operations, never on binary
rounding).  Spreadsheet I/O and merged-cell flattening are external
collaborators and are out of scope: the embedding starts from the ordered
list of (name, raw value) records a period's table provides.
-/

namespace NavCompare

/-! ## Python string primitives -/

/-- Python `str.upper()` on one character, for basic latin letters (the rule
keywords and scheme names handled by the source are ASCII).  This is
`Char.toUpper`: map `'a'..'z'` to `'A'..'Z'`, fix everything else. -/
def upChar (c : Char) : Char := Char.toUpper c

/-- Python `str.upper()`: uppercase every character. -/
def upperL (s : List Char) : List Char := s.map upChar

/-- Emit the word accumulated (in reverse) by `wordsAux`, if any. -/
def flushWord (acc : List Char) : List (List Char) :=
  if acc = [] then [] else [acc.reverse]

/-- Worker for `wordsL`: `acc` holds the current word reversed. -/
def wordsAux : List Char → List Char → List (List Char)
  | [], acc => flushWord acc
  | c :: cs, acc =>
    if c.isWhitespace then flushWord acc ++ wordsAux cs []
    else wordsAux cs (c :: acc)

/-- Python `str.split()` with no separator: split on whitespace runs and drop
the empty pieces. -/
def wordsL (s : List Char) : List (List Char) := wordsAux s []

/-- Python `sep.join(pieces)` for `sep = " "`. -/
def joinWords : List (List Char) → List Char
  | [] => []
  | [w] => w
  | w :: ws => w ++ ' ' :: joinWords ws

/-- Worker for `replaceAll`.  The `Nat` argument is the number of characters
of an already-replaced occurrence still to be skipped. -/
def replaceGo (pat rep : List Char) : Nat → List Char → List Char
  | n + 1, _ :: cs => replaceGo pat rep n cs
  | _ + 1, [] => []
  | 0, [] => if pat.isEmpty then rep else []
  | 0, c :: cs =>
    if pat ≠ [] ∧ pat.isPrefixOf (c :: cs) then
      rep ++ replaceGo pat rep (pat.length - 1) cs
    else if pat.isEmpty then
      rep ++ c :: replaceGo pat rep 0 cs
    else
      c :: replaceGo pat rep 0 cs

/-- Python `str.replace(pat, rep)`: replace every non-overlapping occurrence,
scanning left to right (for an empty pattern, `rep` is inserted around every
character, as CPython does). -/
def replaceAll (pat rep s : List Char) : List Char := replaceGo pat rep 0 s

/-- Python `needle in hay` for strings: contiguous-substring test. -/
def isSubstrL (pat : List Char) : List Char → Bool
  | [] => pat.isEmpty
  | c :: cs => pat.isPrefixOf (c :: cs) || isSubstrL pat cs

/-! ## String-level wrappers -/

/-- Python `str.upper()`. -/
def pyUpper (s : String) : String := ⟨upperL s.data⟩

/-- Python `needle in hay`. -/
def pyIn (needle hay : String) : Bool := isSubstrL needle.data hay.data

/-- Python `s.replace(pat, rep)`. -/
def pyReplace (s pat rep : String) : String := ⟨replaceAll pat.data rep.data s.data⟩

/-! ## The source's helpers

```python
def normalize(s):
    return " ".join(str(s).upper().split())

def clean_text(s):
    for ch in ["-", "–", "—"]:
        s = s.replace(ch, " ")
    return normalize(s)

def extract_base_scheme(name):
    s = clean_text(name)
    for t in RULES["base_scheme_remove_terms"]:
        s = s.replace(t, "")
    return normalize(s)

def exclusion_reason(name):
    for k in RULES["exclusion_rules"]["contains_any"]:
        if k in name.upper():
            return f"Excluded by rule: contains {k}"
    return None
```
-/

/-- `normalize` on character lists: uppercase, then split on whitespace runs,
then rejoin with single spaces. -/
def normalizeL (s : List Char) : List Char := joinWords (wordsL (upperL s))

/-- The source's `normalize`. -/
def normalize (s : String) : String := ⟨normalizeL s.data⟩

/-- The three dash glyphs that `clean_text` replaces: hyphen, en dash, em dash.
Each replacement is of a single character by a space, so the three sequential
`str.replace` passes amount to one character map. -/
def dashToSpace (c : Char) : Char :=
  if c = '-' ∨ c = '–' ∨ c = '—' then ' ' else c

/-- The source's `clean_text`. -/
def clean_text (s : String) : String := normalize ⟨s.data.map dashToSpace⟩

/-- The rule configuration (`scheme_rules.json` is loaded at module start; the
file itself is outside the sources, so the concrete lists stay abstract and
every theorem quantifies over them). -/
structure RuleSet where
  base_scheme_remove_terms : List String
  exclusion_contains_any : List String
  priority_ladder : List (List String)

/-- The source's `extract_base_scheme`: clean, strip every remove-term in list
order, re-normalize. -/
def extract_base_scheme (R : RuleSet) (name : String) : String :=
  normalize (R.base_scheme_remove_terms.foldl (fun s t => pyReplace s t "") (clean_text name))

/-- The source's `exclusion_reason`: first keyword of `contains_any` occurring
in the uppercased name, wrapped in the report message; `none` when eligible. -/
def exclusion_reason (R : RuleSet) (name : String) : Option String :=
  (R.exclusion_contains_any.find? (fun k => pyIn k (pyUpper name))).map
    (fun k => "Excluded by rule: contains " ++ k)

/-! Sanity checks on concrete inputs. -/

example : normalize "  abc   fund  " = "ABC FUND" := by decide
example : clean_text "Abc–Fund - x" = "ABC FUND X" := by decide
example : pyReplace "PLPLANAN" "PLAN" "" = "PLAN" := by decide
example : extract_base_scheme ⟨["DIRECT PLAN", "REGULAR PLAN", "GROWTH"], [], []⟩
    "ABC FUND - DIRECT PLAN - GROWTH" = "ABC FUND" := by decide
example : exclusion_reason ⟨[], ["SEGREGATED"], []⟩ "X Segregated Y"
    = some "Excluded by rule: contains SEGREGATED" := by decide
example : exclusion_reason ⟨[], ["A", "B"], []⟩ "xyz" = none := by decide

/-! ## Data model

A raw record is one row of a period's table after the mandatory columns were
selected: a scheme name and the `Net Asset Value` cell.  `value = none` models
a cell that `pd.to_numeric(..., errors="coerce")` turns into NaN (missing or
non-numeric), which the subsequent `dropna` removes. -/

structure RawRecord where
  name : String
  value : Option ℚ
deriving DecidableEq

/-- A record surviving numeric coercion. -/
structure Record where
  name : String
  nav : ℚ
deriving DecidableEq

/-- An eligible row of the working frame, with its computed `Base` and `Key`
columns (`df["Base"]`, `df["Key"]`). -/
structure EligRow where
  name : String
  nav : ℚ
  base : String
  key : String
deriving DecidableEq

/-- A row of a period's excluded table: name plus reason. -/
structure ExclRow where
  name : String
  reason : String
deriving DecidableEq

/-- The triple `extract` returns: `(final_df, excluded_df, total_raw)`. -/
structure PeriodResult where
  eligible : List EligRow
  excluded : List ExclRow
  totalRaw : Nat
deriving DecidableEq

/-! ## Variant selection

```python
def select_variant(grp):
    for rule in RULES["selection_rules"]["priority_ladder"]:
        m = grp[
            grp["Mutual Fund Name"].str.upper()
            .apply(lambda x: all(k in x for k in rule))
        ]
        if not m.empty:
            return m.iloc[0], grp.drop(m.index)
    return grp.iloc[0], grp.iloc[1:]
```
-/

/-- One ladder rung: the uppercased name must contain every keyword of the
rung (`all(k in x for k in rule)` with `x = name.upper()`). -/
def matchesRow (rule : List String) (name : String) : Bool :=
  rule.all (fun k => pyIn k (pyUpper name))

/-- The source's `select_variant` on a group (rows in original frame order).
`m.iloc[0]` is the first row of the filtered subset; `grp.drop(m.index)`
removes every row of the matched subset `m`, so the losers are exactly the
rows that did **not** match the winning rung.  `none` models the `IndexError`
that `grp.iloc[0]` raises on an empty group (never reached by `extract`). -/
def select_variant (ladder : List (List String)) (grp : List EligRow) :
    Option (EligRow × List EligRow) :=
  match ladder with
  | [] =>
    match grp with
    | [] => none
    | g :: gs => some (g, gs)
  | rule :: rest =>
    match grp.filter (fun r => matchesRow rule r.name) with
    | [] => select_variant rest grp
    | w :: _ => some (w, grp.filter (fun r => !matchesRow rule r.name))

/-! ## Period extraction

```python
def extract(file):
    ...
    df["NAV"] = pd.to_numeric(df["NAV"], errors="coerce")
    df = df.dropna()
    total_raw = len(df)
    excluded = [];  eligible = []
    for _, r in df.iterrows():
        reason = exclusion_reason(r["Mutual Fund Name"])
        if reason: excluded.append({...})
        else: eligible.append(r)
    df = pd.DataFrame(eligible)
    df["Base"] = df["Mutual Fund Name"].apply(extract_base_scheme)
    df["Key"] = df["Mutual Fund Name"].apply(normalize)
    kept = [];  variant_excl = []
    for _, grp in df.groupby("Base"):
        if len(grp) == 1: kept.append(grp.iloc[0])
        else:
            keep, drop = select_variant(grp)
            kept.append(keep)
            for _, d in drop.iterrows(): variant_excl.append({...})
    final_df = pd.DataFrame(kept)
    excluded_df = pd.DataFrame(excluded + variant_excl)
    return final_df, excluded_df, total_raw
```
-/

/-- Numeric coercion + `dropna`: keep the records whose value coerced. -/
def coerce (recs : List RawRecord) : List Record :=
  recs.filterMap (fun r => r.value.map (fun v => ⟨r.name, v⟩))

/-- The keyword-excluded rows, in input scan order. -/
def keywordExcluded (R : RuleSet) (rows : List Record) : List ExclRow :=
  rows.filterMap (fun r => (exclusion_reason R r.name).map (fun why => ⟨r.name, why⟩))

/-- The rows surviving the keyword filter, in input scan order. -/
def eligibleRows (R : RuleSet) (rows : List Record) : List Record :=
  rows.filter (fun r => (exclusion_reason R r.name).isNone)

/-- Attach the `Base` and `Key` columns. -/
def withBaseKey (R : RuleSet) (rows : List Record) : List EligRow :=
  rows.map (fun r => ⟨r.name, r.nav, extract_base_scheme R r.name, normalize r.name⟩)

/-- Python `<` on strings: lexicographic comparison by code point. -/
def strLtB : List Char → List Char → Bool
  | [], [] => false
  | [], _ :: _ => true
  | _ :: _, [] => false
  | a :: as, b :: bs =>
    if a.toNat < b.toNat then true
    else if b.toNat < a.toNat then false
    else strLtB as bs

/-- `a ≤ b` as `¬ b < a`, the order `sorted`/`groupby(sort=True)` use. -/
def strLeB (a b : String) : Bool := !strLtB b.data a.data

/-- Insertion into a `le`-sorted list. -/
def insertBy (le : α → α → Bool) (x : α) : List α → List α
  | [] => [x]
  | y :: ys => if le x y then x :: y :: ys else y :: insertBy le x ys

/-- Insertion sort by a boolean relation. -/
def sortBy (le : α → α → Bool) : List α → List α
  | [] => []
  | x :: xs => insertBy le x (sortBy le xs)

/-- The distinct `Base` values in ascending code-point order: pandas
`df.groupby("Base")` with its default `sort=True` iterates the groups in
sorted key order. -/
def sortedBases (elig : List EligRow) : List String :=
  sortBy strLeB ((elig.map (fun r => r.base)).dedup)

/-- The group of a base: the rows carrying it, in frame order. -/
def groupOf (elig : List EligRow) (b : String) : List EligRow :=
  elig.filter (fun r => r.base == b)

/-- One loop iteration of the group loop: a singleton group is kept outright,
otherwise `select_variant` picks the winner and the dropped rows are demoted
with the variant-selection reason. -/
def variantStep (ladder : List (List String)) (grp : List EligRow) :
    Option (EligRow × List ExclRow) :=
  match grp with
  | [g] => some (g, [])
  | _ =>
    (select_variant ladder grp).map
      (fun p => (p.1, p.2.map (fun d => ⟨d.name, "Excluded: variant selection"⟩)))

/-- Run `variantStep` over every group, in order. -/
def collectGroups (ladder : List (List String)) :
    List (List EligRow) → Option (List (EligRow × List ExclRow))
  | [] => some []
  | g :: gs =>
    match variantStep ladder g, collectGroups ladder gs with
    | some p, some ps => some (p :: ps)
    | _, _ => none

/-- The source's `extract`, from the coerced record list on.  When no record
survives the keyword filter, `pd.DataFrame(eligible)` has no columns and
`df["Mutual Fund Name"]` raises `KeyError`; this is modelled by `none`. -/
def extract (R : RuleSet) (recs : List RawRecord) : Option PeriodResult :=
  let rows := coerce recs
  let total_raw := rows.length
  let excl := keywordExcluded R rows
  let elig := withBaseKey R (eligibleRows R rows)
  if elig = [] then none
  else
    match collectGroups R.priority_ladder ((sortedBases elig).map (groupOf elig)) with
    | none => none
    | some pairs =>
      some ⟨pairs.map Prod.fst, excl ++ (pairs.map Prod.snd).flatten, total_raw⟩

/-! Sanity checks for the extraction pipeline. -/

example :
    extract ⟨["DIRECT PLAN", "REGULAR PLAN", "GROWTH"], [], [["DIRECT"]]⟩
      [⟨"ABC FUND - DIRECT PLAN - GROWTH", some 10⟩,
       ⟨"ABC FUND - REGULAR PLAN - GROWTH", some 11⟩]
    = some ⟨[⟨"ABC FUND - DIRECT PLAN - GROWTH", 10, "ABC FUND",
              "ABC FUND - DIRECT PLAN - GROWTH"⟩],
            [⟨"ABC FUND - REGULAR PLAN - GROWTH", "Excluded: variant selection"⟩],
            2⟩ := by decide

example :
    extract ⟨[], ["IDCW"], []⟩ [⟨"A Idcw", some 1⟩, ⟨"B", some 2⟩]
    = some ⟨[⟨"B", 2, "B", "B"⟩],
            [⟨"A Idcw", "Excluded by rule: contains IDCW"⟩], 2⟩ := by decide

/-! ## The comparison run

```python
def run(latest, past, output_file):
    l_df, l_excl, l_raw = extract(latest)
    p_df, p_excl, p_raw = extract(past)
    ...
    merged = pd.merge(l_df, p_df[["Key", "Past NAV"]], on="Key",
                      how="outer", indicator=True)
    l_nc = merged[merged["_merge"] == "left_only"]
    p_nc = merged[merged["_merge"] == "right_only"]
    comp = merged[merged["_merge"] == "both"].copy()
    l_zero = comp[comp["Latest NAV"] == 0]
    p_zero = comp[comp["Past NAV"] == 0]
    comp = comp[(comp["Latest NAV"] != 0) & (comp["Past NAV"] != 0)]
    comp["Change"] = comp["Latest NAV"] - comp["Past NAV"]
    comp["Change %"] = (comp["Change"] / comp["Past NAV"] * 100).round(2)
    nav_comp = comp[[...]].sort_values("Change %", ascending=False)
    l_excl = pd.concat([l_excl, l_zero.assign(Reason="Excluded: zero NAV")[...],
                        l_nc.assign(Reason="Excluded: not comparable")[...]], ...)
    p_excl = pd.concat([p_excl, p_zero.assign(...), p_nc.assign(...)], ...)
```
-/

/-- A row of the outer merge on `Key`.  Only `Key` and `Past NAV` are taken
from the past frame, so a right-only row has no fund name (NaN in the source,
`none` here); a missing side's NAV is likewise `none`. -/
structure MergedRow where
  key : String
  name : Option String
  latest : Option ℚ
  past : Option ℚ
deriving DecidableEq

/-- Merged row for a key present in both frames. -/
def mkBoth (lr pr : EligRow) : MergedRow := ⟨lr.key, some lr.name, some lr.nav, some pr.nav⟩

/-- Merged row for a key present only in the latest frame (`left_only`). -/
def mkLeft (lr : EligRow) : MergedRow := ⟨lr.key, some lr.name, some lr.nav, none⟩

/-- Merged row for a key present only in the past frame (`right_only`). -/
def mkRight (pr : EligRow) : MergedRow := ⟨pr.key, none, none, some pr.nav⟩

/-- `pd.merge(l_df, p_df[["Key","Past NAV"]], on="Key", how="outer")`: every
left row paired with each matching right row (or alone when unmatched),
followed by the unmatched right rows. -/
def outerMerge (ls ps : List EligRow) : List MergedRow :=
  (ls.map (fun lr =>
    match ps.filter (fun pr => pr.key == lr.key) with
    | [] => [mkLeft lr]
    | ms => ms.map (fun pr => mkBoth lr pr))).flatten
  ++ (ps.filter (fun pr => !ls.any (fun lr => lr.key == pr.key))).map mkRight

/-- `merged[_merge == "left_only"]`. -/
def lncRows (ls ps : List EligRow) : List MergedRow :=
  (outerMerge ls ps).filter (fun m => m.latest.isSome && m.past.isNone)

/-- `merged[_merge == "right_only"]`. -/
def pncRows (ls ps : List EligRow) : List MergedRow :=
  (outerMerge ls ps).filter (fun m => m.latest.isNone && m.past.isSome)

/-- `merged[_merge == "both"]`. -/
def bothRows (ls ps : List EligRow) : List MergedRow :=
  (outerMerge ls ps).filter (fun m => m.latest.isSome && m.past.isSome)

/-- `comp[comp["Latest NAV"] == 0]` (taken before the non-zero filter). -/
def lZeroRows (ls ps : List EligRow) : List MergedRow :=
  (bothRows ls ps).filter (fun m => m.latest == some 0)

/-- `comp[comp["Past NAV"] == 0]` (taken before the non-zero filter). -/
def pZeroRows (ls ps : List EligRow) : List MergedRow :=
  (bothRows ls ps).filter (fun m => m.past == some 0)

/-- The retained comparison set: both sides present and non-zero. -/
def compKept (ls ps : List EligRow) : List MergedRow :=
  (bothRows ls ps).filter (fun m => !(m.latest == some 0) && !(m.past == some 0))

/-- Round half to even, numpy's `.round` tie rule, on exact rationals. -/
def roundHalfEven (q : ℚ) : ℤ :=
  let n : ℤ := ⌊q⌋
  let f : ℚ := q - n
  if f < 1 / 2 then n
  else if 1 / 2 < f then n + 1
  else if n % 2 = 0 then n else n + 1

/-- `.round(2)`: round to two decimal places. -/
def round2 (q : ℚ) : ℚ := (roundHalfEven (q * 100) : ℚ) / 100

/-- A row of the `NAV Comparison` output.  The source's final column
selection drops `Key`; it is retained here so that the join invariants can be
stated (it is `normalize` of the latest-side name throughout). -/
structure CompRow where
  key : String
  name : Option String
  latestValue : ℚ
  pastValue : ℚ
  change : ℚ
  changePercent : ℚ
deriving DecidableEq

/-- Build a comparison row from a retained merged row.  On the retained set
both sides are present (`getD` never takes its default). -/
def mkCompRow (m : MergedRow) : CompRow :=
  let lv := m.latest.getD 0
  let pv := m.past.getD 0
  ⟨m.key, m.name, lv, pv, lv - pv, round2 ((lv - pv) / pv * 100)⟩

/-- A row of an `Excluded_Schemes__*` output sheet.  Rows inherited from
`extract` carry no join key (`key = none`); rows added by the comparison keep
the merge key for specification purposes. -/
structure CompExcl where
  key : Option String
  name : Option String
  reason : String
deriving DecidableEq

/-- Lift a period-extraction exclusion into the output sheet. -/
def liftExcl (e : ExclRow) : CompExcl := ⟨none, some e.name, e.reason⟩

/-- A zero-NAV exclusion row. -/
def zeroExcl (m : MergedRow) : CompExcl := ⟨some m.key, m.name, "Excluded: zero NAV"⟩

/-- A not-comparable exclusion row. -/
def ncExcl (m : MergedRow) : CompExcl := ⟨some m.key, m.name, "Excluded: not comparable"⟩

/-- The three logical output tables of one comparison run. -/
structure CompareResult where
  rows : List CompRow
  latestExcluded : List CompExcl
  pastExcluded : List CompExcl
deriving DecidableEq

/-- Descending order on `Change %` (`sort_values(ascending=False)`). -/
def rowGeB (a b : CompRow) : Bool := decide (b.changePercent ≤ a.changePercent)

/-- The comparison part of the source's `run`, from two extracted periods to
the three output tables (the reconciliation sheet and the Excel writing are
presentation). -/
def runCompare (l p : PeriodResult) : CompareResult :=
  let ls := l.eligible
  let ps := p.eligible
  { rows := sortBy rowGeB ((compKept ls ps).map mkCompRow)
    latestExcluded :=
      l.excluded.map liftExcl
        ++ (lZeroRows ls ps).map zeroExcl
        ++ (lncRows ls ps).map ncExcl
    pastExcluded :=
      p.excluded.map liftExcl
        ++ (pZeroRows ls ps).map zeroExcl
        ++ (pncRows ls ps).map ncExcl }

/-- One full comparison run on raw inputs: extract both periods, compare. -/
def runModel (R : RuleSet) (latest past : List RawRecord) : Option CompareResult :=
  match extract R latest, extract R past with
  | some l, some p => some (runCompare l p)
  | _, _ => none

/-! Sanity checks: latest 100 vs past 50 gives change 50 and 100.00 %;
a fund present in latest only lands in `latestExcluded` as not comparable. -/

example :
    runModel ⟨[], [], []⟩ [⟨"F", some 100⟩, ⟨"G", some 7⟩] [⟨"F", some 50⟩]
    = some
        { rows := [⟨"F", some "F", 100, 50, 50, 100⟩]
          latestExcluded := [⟨some "G", some "G", "Excluded: not comparable"⟩]
          pastExcluded := [] } := by with_unfolding_all decide

/-! ## Spec-modelled canonical forms

The spec describes `NormalizedKey` as the "uppercase, whitespace-collapsed,
dash-variants-unified form of `rawName`".  The two canonicalisers below are
modelled from those words (not from the source) in order to state what "equal
raw names modulo case / whitespace / dash glyph" means. -/

/-- Modelled from the spec: unify the dash variants (hyphen, en dash, em
dash) to the plain hyphen, leaving every other character alone.  Two names
are "equal modulo dash glyph" when their images agree. -/
def dashUnify (s : String) : String :=
  ⟨s.data.map (fun c => if c = '–' ∨ c = '—' then '-' else c)⟩

/-- Modelled from the spec: the "uppercase, whitespace-collapsed" canonical
form.  Two names are "equal modulo case and whitespace runs" when their
images agree. -/
def caseWsCanon (s : String) : String := ⟨joinWords (wordsL (upperL s.data))⟩

/-! ## Helper lemmas -/

/-- Coercion keeps exactly the records with a numeric value. -/
theorem length_coerce (recs : List RawRecord) :
    (coerce recs).length = (recs.filter (fun r => r.value.isSome)).length := by
  induction recs with
  | nil => rfl
  | cons r rs ih =>
    cases hv : r.value with
    | none => simpa [coerce, List.filterMap_cons, hv] using ih
    | some v => simpa [coerce, List.filterMap_cons, hv] using ih

/-! ## C7 — zero-record input -/

/-- C7: the claim (and §7 of the spec) says a zero-record input should yield
an empty `PeriodResult`; in the source, `pd.DataFrame([])` has no columns, so
`df["Mutual Fund Name"]` raises `KeyError` and `extract` fails — modelled by
`none`.  The code, not the claim, is at fault here. -/
theorem extract_empty_input_fails (R : RuleSet) : extract R [] = none := rfl

/-! ## C4 — totalRaw and numeric coercion -/

/-- C4 counterexample: one non-numeric record plus one numeric record.
`total_raw = len(df)` is taken *after* `pd.to_numeric` + `dropna`, so the
non-numeric record is **not** counted: `totalRaw` is `1`, while the claim
("still counted in totalRaw") demands `2`. -/
theorem totalRaw_before_coercion_cx :
    (extract ⟨[], [], []⟩ [⟨"A", none⟩, ⟨"B", some 1⟩]).map PeriodResult.totalRaw
      = some 1
    ∧ [(⟨"A", none⟩ : RawRecord), ⟨"B", some 1⟩].length = 2 := by decide

/-- C4 (amended): a record whose value is non-numeric or missing is dropped
silently and is **not** counted in `totalRaw`: `totalRaw` is the number of
records surviving numeric coercion (`len(df)` after the dropna), taken before
the exclusion classification. -/
theorem totalRaw_counts_after_coercion (R : RuleSet) (recs : List RawRecord)
    (res : PeriodResult) (h : extract R recs = some res) :
    res.totalRaw = (coerce recs).length
    ∧ res.totalRaw = (recs.filter (fun r => r.value.isSome)).length := by
  have hraw : res.totalRaw = (coerce recs).length := by
    simp only [extract] at h
    split at h
    · exact absurd h (by simp)
    · split at h
      · exact absurd h (by simp)
      · cases h
        rfl
  exact ⟨hraw, hraw.trans (length_coerce recs)⟩

/-- Witness for C4: a concrete run where one value is missing. -/
theorem totalRaw_counts_after_coercion_witness :
    (extract ⟨[], [], []⟩ [⟨"A", none⟩, ⟨"B", some 1⟩]
      = some ⟨[⟨"B", 1, "B", "B"⟩], [], 1⟩)
    ∧ (1 = (coerce [⟨"A", none⟩, ⟨"B", some 1⟩]).length
       ∧ 1 = ([(⟨"A", none⟩ : RawRecord), ⟨"B", some 1⟩].filter
                (fun r => r.value.isSome)).length) :=
  ⟨by decide,
   totalRaw_counts_after_coercion ⟨[], [], []⟩ [⟨"A", none⟩, ⟨"B", some 1⟩]
     ⟨[⟨"B", 1, "B", "B"⟩], [], 1⟩ (by decide)⟩

/-! ## C1 — variant selection shape -/

/-- C1 counterexample: a group of two records that both match the first
rung.  `grp.drop(m.index)` removes the whole matched subset, so the second
matching record is neither the winner nor a loser: winner plus losers has one
element while the group has two, refuting "winner plus losers together equal
the whole group". -/
theorem select_variant_not_partition_cx :
    (select_variant [["X"]] [⟨"A X", 1, "A", "A X"⟩, ⟨"B X", 2, "A", "B X"⟩]).map
        (fun p => 1 + p.2.length) = some 1
    ∧ [(⟨"A X", 1, "A", "A X"⟩ : EligRow), ⟨"B X", 2, "A", "B X"⟩].length = 2 := by
  decide

/-- C1 (amended): when the first rung with a non-empty filtered subset is
found, the winner is the first record of that subset in the group's original
iteration order, and the losers are exactly the records that did **not**
match that rung; records matching the rung other than the winner are dropped
from the output altogether (so winner plus losers equal the whole group only
when exactly one record matched). -/
theorem select_variant_first_rung (ladder : List (List String))
    (grp : List EligRow) (rule : List String)
    (h : ladder.find? (fun rule => grp.any (fun r => matchesRow rule r.name))
          = some rule) :
    ∃ w rest, grp.filter (fun r => matchesRow rule r.name) = w :: rest
      ∧ select_variant ladder grp
          = some (w, grp.filter (fun r => !matchesRow rule r.name)) := by
  induction ladder with
  | nil => simp at h
  | cons r0 rest' ih =>
    cases hf : grp.filter (fun r => matchesRow r0 r.name) with
    | nil =>
      have hany : (grp.any (fun r => matchesRow r0 r.name)) = false := by
        rw [List.any_eq_false]
        intro r hr
        have := List.filter_eq_nil_iff.mp hf r hr
        simpa using this
      rw [List.find?_cons_of_neg _ (by simp [hany])] at h
      rcases ih h with ⟨w, rest, hw, hsel⟩
      exact ⟨w, rest, hw, by simpa [select_variant, hf] using hsel⟩
    | cons w t =>
      have hany : (grp.any (fun r => matchesRow r0 r.name)) = true := by
        have hw : w ∈ grp.filter (fun r => matchesRow r0 r.name) := by
          rw [hf]; exact List.mem_cons_self w t
        rcases List.mem_filter.mp hw with ⟨hmem, hmatch⟩
        exact List.any_eq_true.mpr ⟨w, hmem, hmatch⟩
      rw [List.find?_cons_of_pos _ (by simpa using hany)] at h
      cases h
      exact ⟨w, t, hf, by simp [select_variant, hf]⟩

/-- Witness for C1: a concrete group where the first rung matches. -/
theorem select_variant_first_rung_witness :
    ([["X"]].find? (fun rule =>
        [(⟨"A X", 1, "A", "A X"⟩ : EligRow), ⟨"B", 2, "A", "B"⟩].any
          (fun r => matchesRow rule r.name)) = some ["X"])
    ∧ (∃ w rest,
        [(⟨"A X", 1, "A", "A X"⟩ : EligRow), ⟨"B", 2, "A", "B"⟩].filter
            (fun r => matchesRow ["X"] r.name) = w :: rest
        ∧ select_variant [["X"]] [⟨"A X", 1, "A", "A X"⟩, ⟨"B", 2, "A", "B"⟩]
            = some (w, [(⟨"A X", 1, "A", "A X"⟩ : EligRow), ⟨"B", 2, "A", "B"⟩].filter
                        (fun r => !matchesRow ["X"] r.name))) :=
  ⟨by decide,
   select_variant_first_rung [["X"]] [⟨"A X", 1, "A", "A X"⟩, ⟨"B", 2, "A", "B"⟩]
     ["X"] (by decide)⟩

/-! ## C5 — the join key and dash glyphs -/

/-- C5 counterexample: `"A-B"` and `"A–B"` (en dash) are equal modulo
case / whitespace / dash glyph, but the join key is `normalize`, which does
**not** unify dashes (only `clean_text`, used for `Base`, does), so their
keys differ. -/
theorem key_not_dash_unified_cx :
    caseWsCanon (dashUnify "A-B") = caseWsCanon (dashUnify "A–B")
    ∧ normalize "A-B" ≠ normalize "A–B" := by decide

/-- C5 (amended): raw names equal modulo case and whitespace runs always get
equal join keys, and dash-glyph variation is unified by `clean_text` (hence
in `Base`), but not in the join key. -/
theorem key_respects_case_and_whitespace (s t : String)
    (h : caseWsCanon s = caseWsCanon t) :
    normalize s = normalize t ∧ clean_text (dashUnify s) = clean_text s := by
  constructor
  · exact h
  · have hcomp : ∀ c, dashToSpace (if c = '–' ∨ c = '—' then '-' else c)
        = dashToSpace c := by
      intro c
      by_cases h1 : c = '–' ∨ c = '—'
      · rcases h1 with h1 | h1 <;> subst h1 <;> decide
      · simp [h1]
    have hfun : (dashToSpace ∘ fun c => if c = '–' ∨ c = '—' then '-' else c)
        = dashToSpace := by
      funext c
      exact hcomp c
    show normalize ⟨(s.data.map _).map dashToSpace⟩ = normalize ⟨s.data.map dashToSpace⟩
    rw [List.map_map, hfun]

/-- Witness for C5: two names differing in case and spacing only. -/
theorem key_respects_case_and_whitespace_witness :
    caseWsCanon "a  b" = caseWsCanon "A B"
    ∧ (normalize "a  b" = normalize "A B"
       ∧ clean_text (dashUnify "a  b") = clean_text "a  b") :=
  ⟨by decide, key_respects_case_and_whitespace "a  b" "A B" (by decide)⟩

/-! ## C8 — exclusion classification, first match wins -/

/-- Left cancellation for string append. -/
theorem string_append_left_cancel {s a b : String} (h : s ++ a = s ++ b) :
    a = b := by
  have h2 : (s ++ a).data = (s ++ b).data := by rw [h]
  rw [String.data_append, String.data_append] at h2
  exact String.ext (List.append_cancel_left h2)

/-- C8: a name is excluded iff some configured keyword occurs in it as a
case-insensitive substring, and the reported reason cites the keyword
earliest in `contains_any` order.  The source tests `k in name.upper()`, so
the contract is case-insensitive provided the configured keywords are
uppercase, which is what the rule file (absent from the sources; modelled
from the spec's case-insensitive contract) supplies. -/
theorem exclusion_first_match (R : RuleSet) (name : String)
    (hup : ∀ k ∈ R.exclusion_contains_any, pyUpper k = k) :
    ((exclusion_reason R name).isSome ↔
      ∃ k ∈ R.exclusion_contains_any, pyIn (pyUpper k) (pyUpper name) = true)
    ∧ ∀ w, exclusion_reason R name = some ("Excluded by rule: contains " ++ w) →
        ∃ pre post, R.exclusion_contains_any = pre ++ w :: post
          ∧ pyIn (pyUpper w) (pyUpper name) = true
          ∧ ∀ k ∈ pre, pyIn (pyUpper k) (pyUpper name) = false := by
  constructor
  · rw [exclusion_reason, Option.isSome_map', List.find?_isSome]
    constructor
    · rintro ⟨k, hk, hp⟩
      exact ⟨k, hk, by rwa [hup k hk]⟩
    · rintro ⟨k, hk, hp⟩
      exact ⟨k, hk, by rwa [hup k hk] at hp⟩
  · intro w hw
    rw [exclusion_reason, Option.map_eq_some'] at hw
    rcases hw with ⟨k, hfind, hmsg⟩
    have hkw : k = w := string_append_left_cancel hmsg
    subst hkw
    rcases List.find?_eq_some.mp hfind with ⟨hp, pre, post, hsplit, hpre⟩
    refine ⟨pre, post, hsplit, ?_, ?_⟩
    · rwa [hup k (hsplit ▸ (List.mem_append.mpr (Or.inr (List.mem_cons_self k post))))]
    · intro k' hk'
      have hk'mem : k' ∈ R.exclusion_contains_any :=
        hsplit ▸ List.mem_append.mpr (Or.inl hk')
      have := hpre k' hk'
      rw [hup k' hk'mem]
      simpa using this

/-- Witness for C8: two keywords both matching; the earlier one is cited. -/
theorem exclusion_first_match_witness :
    (∀ k ∈ (⟨[], ["AB", "B"], []⟩ : RuleSet).exclusion_contains_any, pyUpper k = k)
    ∧ (((exclusion_reason ⟨[], ["AB", "B"], []⟩ "xAb").isSome ↔
        ∃ k ∈ (⟨[], ["AB", "B"], []⟩ : RuleSet).exclusion_contains_any,
          pyIn (pyUpper k) (pyUpper "xAb") = true)
      ∧ ∀ w, exclusion_reason ⟨[], ["AB", "B"], []⟩ "xAb"
            = some ("Excluded by rule: contains " ++ w) →
          ∃ pre post, (⟨[], ["AB", "B"], []⟩ : RuleSet).exclusion_contains_any
              = pre ++ w :: post
            ∧ pyIn (pyUpper w) (pyUpper "xAb") = true
            ∧ ∀ k ∈ pre, pyIn (pyUpper k) (pyUpper "xAb") = false) :=
  ⟨by decide, exclusion_first_match ⟨[], ["AB", "B"], []⟩ "xAb" (by decide)⟩

/-! ## Order and sorting lemmas -/

/-- Lexicographic `<` on code points is asymmetric. -/
theorem strLtB_asymm : ∀ a b : List Char, strLtB a b = true → strLtB b a = false
  | [], [] => by simp [strLtB]
  | [], _ :: _ => by simp [strLtB]
  | _ :: _, [] => by simp [strLtB]
  | a :: as, b :: bs => by
    intro h
    simp only [strLtB] at h ⊢
    by_cases h1 : a.toNat < b.toNat
    · rw [if_neg (by omega : ¬ b.toNat < a.toNat), if_pos h1]
    · by_cases h2 : b.toNat < a.toNat
      · rw [if_neg h1, if_pos h2] at h
        exact absurd h (by simp)
      · rw [if_neg h1, if_neg h2] at h
        rw [if_neg h2, if_neg h1]
        exact strLtB_asymm as bs h

/-- Transitivity of `¬ <`, i.e. of the `≤` that `strLeB` encodes. -/
theorem strLtB_nlt_trans : ∀ a b c : List Char,
    strLtB b a = false → strLtB c b = false → strLtB c a = false
  | [], b, c => by
    intro _ _
    cases c <;> simp [strLtB]
  | _ :: _, [], _ => by
    intro h1 _
    simp [strLtB] at h1
  | _ :: _, _ :: _, [] => by
    intro _ h2
    simp [strLtB] at h2
  | a :: as, b :: bs, c :: cs => by
    intro h1 h2
    simp only [strLtB] at h1 h2 ⊢
    by_cases hba : b.toNat < a.toNat
    · rw [if_pos hba] at h1
      exact absurd h1 (by simp)
    · by_cases hcb : c.toNat < b.toNat
      · rw [if_pos hcb] at h2
        exact absurd h2 (by simp)
      · rw [if_neg (by omega : ¬ c.toNat < a.toNat)]
        by_cases hac : a.toNat < c.toNat
        · rw [if_pos hac]
        · rw [if_neg hac]
          rw [if_neg hba, if_neg (by omega : ¬ a.toNat < b.toNat)] at h1
          rw [if_neg hcb, if_neg (by omega : ¬ b.toNat < c.toNat)] at h2
          exact strLtB_nlt_trans as bs cs h1 h2

/-- `strLeB` is total. -/
theorem strLeB_total (a b : String) (h : strLeB a b = false) : strLeB b a = true := by
  unfold strLeB at h ⊢
  have hlt : strLtB b.data a.data = true := by simpa using h
  simp [strLtB_asymm _ _ hlt]

/-- `strLeB` is transitive. -/
theorem strLeB_trans (a b c : String) (h1 : strLeB a b = true)
    (h2 : strLeB b c = true) : strLeB a c = true := by
  unfold strLeB at h1 h2 ⊢
  have h1' : strLtB b.data a.data = false := by simpa using h1
  have h2' : strLtB c.data b.data = false := by simpa using h2
  simp [strLtB_nlt_trans _ _ _ h1' h2']

/-- `insertBy` is a permutation of consing. -/
theorem perm_insertBy (le : α → α → Bool) (x : α) :
    ∀ l : List α, List.Perm (insertBy le x l) (x :: l) := by
  intro l
  induction l with
  | nil => exact List.Perm.refl _
  | cons y ys ih =>
    by_cases hle : le x y
    · rw [insertBy, if_pos hle]
    · rw [insertBy, if_neg hle]
      exact (ih.cons y).trans (List.Perm.swap x y ys)

/-- `sortBy` permutes its input. -/
theorem perm_sortBy (le : α → α → Bool) : ∀ l : List α, List.Perm (sortBy le l) l := by
  intro l
  induction l with
  | nil => exact List.Perm.refl _
  | cons x xs ih => exact (perm_insertBy le x (sortBy le xs)).trans (ih.cons x)

/-- `insertBy` preserves sortedness, given a total transitive `le`. -/
theorem pairwise_insertBy {le : α → α → Bool}
    (htot : ∀ a b, le a b = false → le b a = true)
    (htrans : ∀ a b c, le a b = true → le b c = true → le a c = true)
    (x : α) : ∀ l : List α, l.Pairwise (fun a b => le a b = true) →
      (insertBy le x l).Pairwise (fun a b => le a b = true) := by
  intro l
  induction l with
  | nil => simp [insertBy]
  | cons y ys ih =>
    intro h
    rcases List.pairwise_cons.mp h with ⟨hy, hys⟩
    by_cases hle : le x y
    · rw [insertBy, if_pos hle]
      refine List.pairwise_cons.mpr ⟨?_, h⟩
      intro z hz
      rcases List.mem_cons.mp hz with rfl | hz'
      · exact hle
      · exact htrans x y z hle (hy z hz')
    · rw [insertBy, if_neg hle]
      refine List.pairwise_cons.mpr ⟨?_, ih hys⟩
      intro z hz
      rcases List.mem_cons.mp ((perm_insertBy le x ys).mem_iff.mp hz) with rfl | hz'
      · exact htot _ _ (by simpa using hle)
      · exact hy z hz'

/-- `sortBy` sorts, given a total transitive `le`. -/
theorem pairwise_sortBy {le : α → α → Bool}
    (htot : ∀ a b, le a b = false → le b a = true)
    (htrans : ∀ a b c, le a b = true → le b c = true → le a c = true) :
    ∀ l : List α, (sortBy le l).Pairwise (fun a b => le a b = true) := by
  intro l
  induction l with
  | nil => simp [sortBy]
  | cons x xs ih => exact pairwise_insertBy htot htrans x (sortBy le xs) ih

/-! ## Selection counting -/

/-- The number of records a group loses silently in `select_variant`: when
some rung matches, `grp.drop(m.index)` discards every matched record except
the winner (`m.iloc[0]`). -/
def silentDrops (ladder : List (List String)) (grp : List EligRow) : Nat :=
  match ladder.find? (fun rule => grp.any (fun r => matchesRow rule r.name)) with
  | some rule => (grp.filter (fun r => matchesRow rule r.name)).length - 1
  | none => 0

/-- `select_variant` on a non-empty group: winner from the group, and the
sizes satisfy `1 + |losers| + silentDrops = |group|`. -/
theorem select_variant_spec (ladder : List (List String)) :
    ∀ grp : List EligRow, grp ≠ [] →
      ∃ w ls, select_variant ladder grp = some (w, ls)
        ∧ w ∈ grp
        ∧ 1 + ls.length + silentDrops ladder grp = grp.length := by
  induction ladder with
  | nil =>
    intro grp hne
    cases grp with
    | nil => exact absurd rfl hne
    | cons g gs =>
      refine ⟨g, gs, rfl, List.mem_cons_self g gs, ?_⟩
      simp [silentDrops]
      omega
  | cons rule rest ih =>
    intro grp hne
    cases hf : grp.filter (fun r => matchesRow rule r.name) with
    | nil =>
      have hany : (grp.any (fun r => matchesRow rule r.name)) = false := by
        rw [List.any_eq_false]
        intro r hr
        simpa using List.filter_eq_nil_iff.mp hf r hr
      rcases ih grp hne with ⟨w, ls, hsel, hmem, hlen⟩
      have hrw : silentDrops (rule :: rest) grp = silentDrops rest grp := by
        unfold silentDrops
        rw [List.find?_cons_of_neg _ (by simp [hany])]
      refine ⟨w, ls, ?_, hmem, ?_⟩
      · simpa [select_variant, hf] using hsel
      · rw [hrw]
        exact hlen
    | cons w t =>
      have hw : w ∈ grp.filter (fun r => matchesRow rule r.name) := by
        rw [hf]
        exact List.mem_cons_self _ _
      rcases List.mem_filter.mp hw with ⟨hmem, hmatch⟩
      have hany : (grp.any (fun r => matchesRow rule r.name)) = true :=
        List.any_eq_true.mpr ⟨w, hmem, hmatch⟩
      have htotal :
          (grp.filter (fun r => matchesRow rule r.name)).length
            + (grp.filter (fun r => !matchesRow rule r.name)).length
          = grp.length := by
        have := (List.filter_append_perm (fun r => matchesRow rule r.name) grp).length_eq
        simpa [List.length_append] using this
      have hsd : silentDrops (rule :: rest) grp
          = (grp.filter (fun r => matchesRow rule r.name)).length - 1 := by
        unfold silentDrops
        rw [List.find?_cons_of_pos _ (by simpa using hany)]
      refine ⟨w, grp.filter (fun r => !matchesRow rule r.name), ?_, hmem, ?_⟩
      · simp [select_variant, hf]
      · rw [hsd, hf] at *
        simp only [List.length_cons] at htotal ⊢
        omega

/-- `variantStep` on a non-empty group (singleton groups shortcut the
ladder; larger groups go through `select_variant`). -/
theorem variantStep_spec (ladder : List (List String)) (grp : List EligRow)
    (hne : grp ≠ []) :
    ∃ w excl, variantStep ladder grp = some (w, excl)
      ∧ w ∈ grp
      ∧ 1 + excl.length + silentDrops ladder grp = grp.length := by
  cases grp with
  | nil => exact absurd rfl hne
  | cons g gs =>
    cases gs with
    | nil =>
      refine ⟨g, [], rfl, List.mem_cons_self g [], ?_⟩
      have hzero : silentDrops ladder [g] = 0 := by
        unfold silentDrops
        cases hfind : ladder.find?
            (fun rule => [g].any (fun r => matchesRow rule r.name)) with
        | none => rfl
        | some rule =>
          have hm : matchesRow rule g.name = true := by
            have := List.find?_some hfind
            simpa using this
          simp [List.filter_cons, hm]
      rw [hzero]
      simp
    | cons g2 gs2 =>
      rcases select_variant_spec ladder (g :: g2 :: gs2) (by simp) with
        ⟨w, ls, hsel, hmem, hlen⟩
      refine ⟨w, ls.map (fun d => ⟨d.name, "Excluded: variant selection"⟩),
        ?_, hmem, ?_⟩
      · simp [variantStep, hsel]
      · simpa [List.length_map] using hlen

/-- `collectGroups` over the groups of a base list: never fails on non-empty
groups, winners carry their group's base in order, and the counts add up. -/
theorem collectGroups_spec (ladder : List (List String)) (elig : List EligRow) :
    ∀ bs : List String, (∀ b ∈ bs, groupOf elig b ≠ []) →
      ∃ ps, collectGroups ladder (bs.map (groupOf elig)) = some ps
        ∧ ps.map (fun p => p.1.base) = bs
        ∧ ps.length = bs.length
        ∧ ((ps.map (fun p => p.2.length)).sum + ps.length
            + (bs.map (fun b => silentDrops ladder (groupOf elig b))).sum
          = (bs.map (fun b => (groupOf elig b).length)).sum)
        ∧ ∀ q ∈ ps, q.1 ∈ elig := by
  intro bs
  induction bs with
  | nil => exact fun _ => ⟨[], rfl, rfl, rfl, rfl, by simp⟩
  | cons b bs' ih =>
    intro hne
    rcases variantStep_spec ladder (groupOf elig b)
        (hne b (List.mem_cons_self b bs')) with ⟨w, excl, hstep, hmem, hlen⟩
    rcases ih (fun b' hb' => hne b' (List.mem_cons.mpr (Or.inr hb'))) with
      ⟨ps, hcoll, hbases, hplen, hsum, hmemw⟩
    have hwb : w.base = b := by
      have := (List.mem_filter.mp hmem).2
      simpa using this
    refine ⟨(w, excl) :: ps, ?_, ?_, ?_, ?_, ?_⟩
    · simp [collectGroups, hstep, hcoll]
    · simp [hwb, hbases]
    · simp [hplen]
    · simp only [List.map_cons, List.sum_cons, List.length_cons]
      omega
    · intro q hq
      rcases List.mem_cons.mp hq with rfl | hq'
      · exact (List.mem_filter.mp hmem).1
      · exact hmemw q hq'

/-- Summing group sizes over a duplicate-free, covering base list gives the
total size. -/
theorem sum_group_lengths :
    ∀ (bs : List String) (l : List EligRow), bs.Nodup →
      (∀ r ∈ l, r.base ∈ bs) →
      (bs.map (fun b => (l.filter (fun r => r.base == b)).length)).sum = l.length := by
  intro bs
  induction bs with
  | nil =>
    intro l _ hcov
    cases l with
    | nil => rfl
    | cons r rs => exact absurd (hcov r (List.mem_cons_self r rs)) (by simp)
  | cons b bs' ih =>
    intro l hnd hcov
    rcases List.nodup_cons.mp hnd with ⟨hb, hnd'⟩
    have hsplit :
        (l.filter (fun r => r.base == b)).length
          + (l.filter (fun r => !(r.base == b))).length = l.length := by
      have := (List.filter_append_perm (fun r => r.base == b) l).length_eq
      simpa [List.length_append] using this
    have hcongr : ∀ b' ∈ bs',
        l.filter (fun r => r.base == b')
          = (l.filter (fun r => !(r.base == b))).filter (fun r => r.base == b') := by
      intro b' hb'
      rw [List.filter_filter]
      apply List.filter_congr
      intro r _
      by_cases hr : r.base = b'
      · have hne2 : b' ≠ b := fun hEq => hb (hEq ▸ hb')
        have hrb : ¬ r.base = b := fun hrb2 => hne2 (hr ▸ hrb2)
        simp [hr, hrb, hne2]
      · simp [hr]
    have hmapeq :
        bs'.map (fun b' => (l.filter (fun r => r.base == b')).length)
          = bs'.map (fun b' =>
              ((l.filter (fun r => !(r.base == b))).filter
                (fun r => r.base == b')).length) := by
      apply List.map_congr_left
      intro b' hb'
      rw [hcongr b' hb']
    have hcov' : ∀ r ∈ l.filter (fun r => !(r.base == b)), r.base ∈ bs' := by
      intro r hr
      rcases List.mem_filter.mp hr with ⟨hrl, hrb⟩
      have hrbne : r.base ≠ b := by simpa using hrb
      rcases List.mem_cons.mp (hcov r hrl) with heq | hmem
      · exact absurd heq hrbne
      · exact hmem
    have := ih (l.filter (fun r => !(r.base == b))) hnd' hcov'
    simp only [List.map_cons, List.sum_cons]
    rw [hmapeq, this]
    omega

/-- Unfolding `extract` on a successful run. -/
theorem extract_eq_some {R : RuleSet} {recs : List RawRecord}
    {res : PeriodResult} (h : extract R recs = some res) :
    ∃ pairs,
      withBaseKey R (eligibleRows R (coerce recs)) ≠ []
      ∧ collectGroups R.priority_ladder
          ((sortedBases (withBaseKey R (eligibleRows R (coerce recs)))).map
            (groupOf (withBaseKey R (eligibleRows R (coerce recs))))) = some pairs
      ∧ res = ⟨pairs.map Prod.fst,
               keywordExcluded R (coerce recs) ++ (pairs.map Prod.snd).flatten,
               (coerce recs).length⟩ := by
  simp only [extract] at h
  split at h
  · exact absurd h (by simp)
  · rename_i hne
    split at h
    · exact absurd h (by simp)
    · rename_i pairs hpairs
      cases h
      exact ⟨pairs, hne, hpairs, rfl⟩

/-- The bases appearing in the eligible frame all occur in `sortedBases`,
and the corresponding groups are non-empty. -/
theorem groupOf_sortedBases_ne_nil (elig : List EligRow) :
    ∀ b ∈ sortedBases elig, groupOf elig b ≠ [] := by
  intro b hb
  have hb' : b ∈ (elig.map (fun r => r.base)).dedup :=
    (perm_sortBy strLeB _).mem_iff.mp hb
  have hb'' : b ∈ elig.map (fun r => r.base) := List.mem_dedup.mp hb'
  rcases List.mem_map.mp hb'' with ⟨r, hr, hrb⟩
  have : r ∈ groupOf elig b := List.mem_filter.mpr ⟨hr, by simp [hrb]⟩
  exact List.ne_nil_of_mem this

/-- `sortedBases` is duplicate-free and covers every row's base. -/
theorem sortedBases_nodup (elig : List EligRow) : (sortedBases elig).Nodup :=
  (perm_sortBy strLeB _).nodup_iff.mpr (List.nodup_dedup _)

/-- Coverage: every row's base is a sorted base. -/
theorem mem_sortedBases (elig : List EligRow) :
    ∀ r ∈ elig, r.base ∈ sortedBases elig := by
  intro r hr
  exact (perm_sortBy strLeB _).mem_iff.mpr
    (List.mem_dedup.mpr (List.mem_map.mpr ⟨r, hr, rfl⟩))

/-- The names of the keyword-excluded rows, in order. -/
theorem keywordExcluded_names (R : RuleSet) : ∀ rows : List Record,
    (keywordExcluded R rows).map (fun e => e.name)
      = (rows.filter (fun r => (exclusion_reason R r.name).isSome)).map
          (fun r => r.name) := by
  intro rows
  unfold keywordExcluded
  induction rows with
  | nil => rfl
  | cons r rs ih =>
    cases hv : exclusion_reason R r.name with
    | none => simp [List.filterMap_cons, hv, List.filter_cons, ih]
    | some w => simp [List.filterMap_cons, hv, List.filter_cons, ih]

/-- Keyword exclusions and keyword survivors partition the coerced rows. -/
theorem keyword_partition (R : RuleSet) (rows : List Record) :
    (keywordExcluded R rows).length + (eligibleRows R rows).length = rows.length := by
  have h1 : (keywordExcluded R rows).length
      = (rows.filter (fun r => (exclusion_reason R r.name).isSome)).length := by
    have := congrArg List.length (keywordExcluded_names R rows)
    simpa [List.length_map] using this
  have h2 : eligibleRows R rows
      = rows.filter (fun r => !(exclusion_reason R r.name).isSome) := by
    unfold eligibleRows
    apply List.filter_congr
    intro r _
    cases exclusion_reason R r.name <;> rfl
  have := (List.filter_append_perm
    (fun r => (exclusion_reason R r.name).isSome) rows).length_eq
  rw [h1, h2]
  simpa [List.length_append] using this

/-! ## C2 — partition completeness -/

/-- The total number of records silently lost to the `grp.drop(m.index)`
behaviour across all groups of a run. -/
def totalSilentDrops (R : RuleSet) (recs : List RawRecord) : Nat :=
  ((sortedBases (withBaseKey R (eligibleRows R (coerce recs)))).map
    (fun b => silentDrops R.priority_ladder
      (groupOf (withBaseKey R (eligibleRows R (coerce recs))) b))).sum

/-- C2 counterexample: two records share a base and both match the only
ladder rung; one of them vanishes (neither eligible nor excluded), so
`|eligible| + |excluded| = 1 ≠ 2` records surviving coercion. -/
theorem partition_completeness_cx :
    (extract ⟨["B"], [], [["X"]]⟩ [⟨"A X", some 1⟩, ⟨"A X B", some 2⟩]).map
        (fun res => (res.eligible.length, res.excluded.length, res.totalRaw))
      = some (1, 0, 2)
    ∧ 1 + 0 ≠ 2 := by decide

/-- C2 (amended): `|eligible| + |excluded|` equals the number of records
surviving numeric coercion **minus** the records silently dropped by variant
selection (matched-rung records other than the winner); the original equality
holds exactly when no group's winning rung matched more than one record. -/
theorem partition_completeness (R : RuleSet) (recs : List RawRecord)
    (res : PeriodResult) (h : extract R recs = some res) :
    res.eligible.length + res.excluded.length + totalSilentDrops R recs
      = (coerce recs).length := by
  rcases extract_eq_some h with ⟨pairs, hne, hcoll, hres⟩
  rcases collectGroups_spec R.priority_ladder
      (withBaseKey R (eligibleRows R (coerce recs)))
      (sortedBases (withBaseKey R (eligibleRows R (coerce recs))))
      (groupOf_sortedBases_ne_nil _) with ⟨ps, hcoll', hbases, hplen, hsum, hmemw⟩
  rw [hcoll'] at hcoll
  injection hcoll with hps
  rw [hps] at hbases hplen hsum
  subst hres
  have hgroups : ((sortedBases (withBaseKey R (eligibleRows R (coerce recs)))).map
      (fun b => (groupOf (withBaseKey R (eligibleRows R (coerce recs))) b).length)).sum
      = (withBaseKey R (eligibleRows R (coerce recs))).length := by
    apply sum_group_lengths
    · exact sortedBases_nodup _
    · exact mem_sortedBases _
  have hwbk : (withBaseKey R (eligibleRows R (coerce recs))).length
      = (eligibleRows R (coerce recs)).length := by
    simp [withBaseKey]
  have hpart := keyword_partition R (coerce recs)
  show (pairs.map Prod.fst).length
      + (keywordExcluded R (coerce recs) ++ (pairs.map Prod.snd).flatten).length
      + totalSilentDrops R recs
      = (coerce recs).length
  have e1 : (pairs.map Prod.fst).length = pairs.length := List.length_map _ _
  have e2 : (keywordExcluded R (coerce recs) ++ (pairs.map Prod.snd).flatten).length
      = (keywordExcluded R (coerce recs)).length
        + ((pairs.map Prod.snd).flatten).length :=
    List.length_append _ _
  have e3 : ((pairs.map Prod.snd).flatten).length
      = (pairs.map (fun p => p.2.length)).sum := by
    rw [List.length_flatten, List.map_map]
    rfl
  have e4 : ((sortedBases (withBaseKey R (eligibleRows R (coerce recs)))).map
      (fun b => silentDrops R.priority_ladder
        (groupOf (withBaseKey R (eligibleRows R (coerce recs))) b))).sum
      = totalSilentDrops R recs := rfl
  rw [e4] at hsum
  rw [e1, e2, e3]
  omega

/-- Witness for C2: the workaday case where nothing is lost. -/
theorem partition_completeness_witness :
    (extract ⟨[], ["ZZ"], []⟩ [⟨"A", some 1⟩, ⟨"B ZZ", some 2⟩]
      = some ⟨[⟨"A", 1, "A", "A"⟩],
              [⟨"B ZZ", "Excluded by rule: contains ZZ"⟩], 2⟩)
    ∧ 1 + 1 + totalSilentDrops ⟨[], ["ZZ"], []⟩ [⟨"A", some 1⟩, ⟨"B ZZ", some 2⟩]
        = (coerce [⟨"A", some 1⟩, ⟨"B ZZ", some 2⟩]).length := by
  refine ⟨by decide, ?_⟩
  have h := partition_completeness ⟨[], ["ZZ"], []⟩
    [⟨"A", some 1⟩, ⟨"B ZZ", some 2⟩]
    ⟨[⟨"A", 1, "A", "A"⟩], [⟨"B ZZ", "Excluded by rule: contains ZZ"⟩], 2⟩
    (by decide)
  simpa using h

/-! ## C6 — output ordering -/

/-- Keyword exclusions keep the input scan order (they form a subsequence of
the coerced rows). -/
theorem keywordExcluded_order (R : RuleSet) (rows : List Record) :
    List.Sublist ((keywordExcluded R rows).map (fun e => e.name))
      (rows.map (fun r => r.name)) := by
  rw [keywordExcluded_names]
  exact List.Sublist.map _ (List.filter_sublist rows)

/-- C6 counterexample: input order `B, A` (distinct bases), but the eligible
output comes back `A, B`: pandas `groupby("Base")` sorts the group keys, so
`eligible` is in ascending base order, not first-encounter order. -/
theorem eligible_not_input_order_cx :
    (extract ⟨[], [], []⟩ [⟨"B", some 1⟩, ⟨"A", some 2⟩]).map
        (fun res => res.eligible.map (fun r => r.name)) = some ["A", "B"]
    ∧ [(⟨"B", some 1⟩ : RawRecord), ⟨"A", some 2⟩].map (fun r => r.name) = ["B", "A"]
    ∧ (["A", "B"] : List String) ≠ ["B", "A"] := by decide

/-- C6 (amended): the keyword-excluded sequence preserves the input scan
order (and the variant-selection exclusions are appended after it), but the
eligible sequence is ordered by ascending `Base` (the sorted `groupby` key
order), not by first encounter. -/
theorem extract_order (R : RuleSet) (recs : List RawRecord)
    (res : PeriodResult) (h : extract R recs = some res) :
    (res.eligible.map (fun r => r.base)).Pairwise (fun a b => strLeB a b = true)
    ∧ (∃ vexcl, res.excluded = keywordExcluded R (coerce recs) ++ vexcl)
    ∧ List.Sublist ((keywordExcluded R (coerce recs)).map (fun e => e.name))
        ((coerce recs).map (fun r => r.name)) := by
  rcases extract_eq_some h with ⟨pairs, hne, hcoll, hres⟩
  rcases collectGroups_spec R.priority_ladder
      (withBaseKey R (eligibleRows R (coerce recs)))
      (sortedBases (withBaseKey R (eligibleRows R (coerce recs))))
      (groupOf_sortedBases_ne_nil _) with ⟨ps, hcoll', hbases, hplen, hsum, hmemw⟩
  rw [hcoll'] at hcoll
  injection hcoll with hps
  rw [hps] at hbases
  subst hres
  refine ⟨?_, ⟨(pairs.map Prod.snd).flatten, rfl⟩, keywordExcluded_order R _⟩
  show ((pairs.map Prod.fst).map (fun r => r.base)).Pairwise
    (fun a b => strLeB a b = true)
  have hmm : (pairs.map Prod.fst).map (fun r => r.base)
      = pairs.map (fun p => p.1.base) := by
    rw [List.map_map]
    rfl
  rw [hmm, hbases]
  exact pairwise_sortBy strLeB_total strLeB_trans _

/-- Witness for C6: a run whose eligible output is base-sorted. -/
theorem extract_order_witness :
    (extract ⟨[], [], []⟩ [⟨"B", some 1⟩, ⟨"A", some 2⟩]
      = some ⟨[⟨"A", 2, "A", "A"⟩, ⟨"B", 1, "B", "B"⟩], [], 2⟩)
    ∧ ((([⟨"A", 2, "A", "A"⟩, (⟨"B", 1, "B", "B"⟩ : EligRow)] : List EligRow).map
          (fun r => r.base)).Pairwise (fun a b => strLeB a b = true)
      ∧ (∃ vexcl, ([] : List ExclRow)
          = keywordExcluded ⟨[], [], []⟩ (coerce [⟨"B", some 1⟩, ⟨"A", some 2⟩])
            ++ vexcl)
      ∧ List.Sublist
          ((keywordExcluded ⟨[], [], []⟩
            (coerce [⟨"B", some 1⟩, ⟨"A", some 2⟩])).map (fun e => e.name))
          ((coerce [⟨"B", some 1⟩, ⟨"A", some 2⟩]).map (fun r => r.name))) :=
  ⟨by decide,
   extract_order ⟨[], [], []⟩ [⟨"B", some 1⟩, ⟨"A", some 2⟩]
     ⟨[⟨"A", 2, "A", "A"⟩, ⟨"B", 1, "B", "B"⟩], [], 2⟩ (by decide)⟩

/-! ## C9 — zero-division safety -/

/-- C9: no retained comparison row carries a zero past (or latest) value: the
zero filter happens on `comp` before `Change %` is computed, so the division
by the past value is never a division by zero. -/
theorem zero_division_safety (l p : PeriodResult) :
    ∀ row ∈ (runCompare l p).rows, row.pastValue ≠ 0 ∧ row.latestValue ≠ 0 := by
  intro row hrow
  have hrow' : row ∈ (compKept l.eligible p.eligible).map mkCompRow :=
    (perm_sortBy rowGeB _).mem_iff.mp hrow
  rcases List.mem_map.mp hrow' with ⟨m, hm, rfl⟩
  rcases List.mem_filter.mp hm with ⟨hmb, hcond⟩
  rcases List.mem_filter.mp hmb with ⟨_, hsome⟩
  simp only [Bool.and_eq_true] at hsome hcond
  obtain ⟨lv, hlv⟩ := Option.isSome_iff_exists.mp hsome.1
  obtain ⟨pv, hpv⟩ := Option.isSome_iff_exists.mp hsome.2
  have hlz : m.latest ≠ some 0 := by
    intro hzero
    have := hcond.1
    rw [hzero] at this
    simp at this
  have hpz : m.past ≠ some 0 := by
    intro hzero
    have := hcond.2
    rw [hzero] at this
    simp at this
  constructor
  · show (mkCompRow m).pastValue ≠ 0
    have : (mkCompRow m).pastValue = pv := by simp [mkCompRow, hpv]
    rw [this]
    intro hzero
    exact hpz (by rw [hpv, hzero])
  · show (mkCompRow m).latestValue ≠ 0
    have : (mkCompRow m).latestValue = lv := by simp [mkCompRow, hlv]
    rw [this]
    intro hzero
    exact hlz (by rw [hlv, hzero])

/-- Witness for C9: a concrete comparison row with non-zero sides. -/
theorem zero_division_safety_witness :
    ((⟨"F", some "F", 100, 50, 50, 100⟩ : CompRow)
        ∈ (runCompare ⟨[⟨"F", 100, "F", "F"⟩], [], 1⟩
            ⟨[⟨"F", 50, "F", "F"⟩], [], 1⟩).rows)
    ∧ ((⟨"F", some "F", 100, 50, 50, 100⟩ : CompRow).pastValue ≠ 0
       ∧ (⟨"F", some "F", 100, 50, 50, 100⟩ : CompRow).latestValue ≠ 0) :=
  ⟨by with_unfolding_all decide,
   zero_division_safety ⟨[⟨"F", 100, "F", "F"⟩], [], 1⟩
     ⟨[⟨"F", 50, "F", "F"⟩], [], 1⟩ ⟨"F", some "F", 100, 50, 50, 100⟩
     (by with_unfolding_all decide)⟩

/-! ## Character facts -/

/-- Kernel evaluation of `Char.ofNat` over the uppercase letter range. -/
theorem toNat_ofNat_upper (n : Nat) (h1 : 65 ≤ n) (h2 : n ≤ 90) :
    (Char.ofNat n).toNat = n := by
  interval_cases n <;> decide

/-- Characters with distinct code points are distinct. -/
theorem char_ne_of_toNat {c m : Char} (h : c.toNat ≠ m.toNat) : c ≠ m :=
  fun he => h (he ▸ rfl)

/-- `upChar` fixes every character outside `'a'..'z'`. -/
theorem upChar_eq_of_not_lower (c : Char) (h : ¬(97 ≤ c.toNat ∧ c.toNat ≤ 122)) :
    upChar c = c := by
  show (if c.toNat ≥ 97 ∧ c.toNat ≤ 122 then Char.ofNat (c.toNat - 32) else c) = c
  rw [if_neg (by omega)]

/-- `upChar` maps `'a'..'z'` into `'A'..'Z'` by code point. -/
theorem upChar_toNat_of_lower (c : Char) (h1 : 97 ≤ c.toNat) (h2 : c.toNat ≤ 122) :
    (upChar c).toNat = c.toNat - 32 := by
  show (if c.toNat ≥ 97 ∧ c.toNat ≤ 122 then Char.ofNat (c.toNat - 32) else c).toNat
      = c.toNat - 32
  rw [if_pos (by omega)]
  exact toNat_ofNat_upper _ (by omega) (by omega)

/-- `upChar` is idempotent. -/
theorem upChar_idem (c : Char) : upChar (upChar c) = upChar c := by
  by_cases h : 97 ≤ c.toNat ∧ c.toNat ≤ 122
  · have ht := upChar_toNat_of_lower c h.1 h.2
    apply upChar_eq_of_not_lower
    omega
  · rw [upChar_eq_of_not_lower c h]
    exact upChar_eq_of_not_lower c h

/-- `upChar` never creates a dash glyph. -/
theorem upChar_dash_free (c : Char) (h : c ≠ '-' ∧ c ≠ '–' ∧ c ≠ '—') :
    upChar c ≠ '-' ∧ upChar c ≠ '–' ∧ upChar c ≠ '—' := by
  by_cases hl : 97 ≤ c.toNat ∧ c.toNat ≤ 122
  · have ht := upChar_toNat_of_lower c hl.1 hl.2
    have d1 : ('-').toNat = 45 := rfl
    have d2 : ('–').toNat = 8211 := rfl
    have d3 : ('—').toNat = 8212 := rfl
    exact ⟨char_ne_of_toNat (by omega), char_ne_of_toNat (by omega),
      char_ne_of_toNat (by omega)⟩
  · rw [upChar_eq_of_not_lower c hl]
    exact h

/-! ## Splitting lemmas -/

/-- A whitespace-free block is swallowed whole by the splitter. -/
theorem wordsAux_append_word :
    ∀ (w l acc : List Char), (∀ c ∈ w, c.isWhitespace = false) →
      wordsAux (w ++ l) acc = wordsAux l (w.reverse ++ acc) := by
  intro w
  induction w with
  | nil =>
    intro l acc _
    simp
  | cons c w' ih =>
    intro l acc hws
    have hc : c.isWhitespace = false := hws c (List.mem_cons_self _ _)
    show wordsAux (c :: (w' ++ l)) acc = _
    simp only [wordsAux]
    rw [if_neg (by simp [hc])]
    rw [ih l (c :: acc) (fun d hd => hws d (List.mem_cons_of_mem c hd))]
    congr 1
    simp

/-- A whitespace head flushes the accumulator. -/
theorem wordsAux_ws_head (c : Char) (cs acc : List Char)
    (h : c.isWhitespace = true) :
    wordsAux (c :: cs) acc = flushWord acc ++ wordsAux cs [] := by
  simp only [wordsAux]
  rw [if_pos h]

/-- Splitting a single non-empty whitespace-free word yields that word. -/
theorem wordsL_single (w : List Char) (hne : w ≠ [])
    (hws : ∀ c ∈ w, c.isWhitespace = false) : wordsL w = [w] := by
  have h := wordsAux_append_word w [] [] hws
  rw [List.append_nil] at h
  unfold wordsL
  rw [h]
  show flushWord (w.reverse ++ []) = [w]
  rw [List.append_nil]
  unfold flushWord
  rw [if_neg (by simpa using hne), List.reverse_reverse]

/-- Splitting `word ++ " " ++ rest` peels off the word. -/
theorem wordsL_word_space (w r : List Char) (hne : w ≠ [])
    (hws : ∀ c ∈ w, c.isWhitespace = false) :
    wordsL (w ++ ' ' :: r) = w :: wordsL r := by
  unfold wordsL
  rw [wordsAux_append_word w (' ' :: r) [] hws]
  rw [wordsAux_ws_head ' ' r _ (by decide)]
  unfold flushWord
  rw [List.append_nil, if_neg (by simpa using hne), List.reverse_reverse]
  rfl

/-- Splitting a join of non-empty whitespace-free words recovers them. -/
theorem wordsL_joinWords : ∀ ws : List (List Char),
    (∀ w ∈ ws, w ≠ [] ∧ ∀ c ∈ w, c.isWhitespace = false) →
    wordsL (joinWords ws) = ws := by
  intro ws
  induction ws with
  | nil => intro _; rfl
  | cons w ws' ih =>
    intro h
    have hw := h w (List.mem_cons_self _ _)
    cases ws' with
    | nil => exact wordsL_single w hw.1 hw.2
    | cons w2 rest =>
      show wordsL (w ++ ' ' :: joinWords (w2 :: rest)) = w :: (w2 :: rest)
      rw [wordsL_word_space w _ hw.1 hw.2]
      rw [ih (fun u hu => h u (List.mem_cons_of_mem _ hu))]

/-- Every piece flushed from a whitespace-free accumulator is a non-empty
whitespace-free word. -/
theorem flushWord_ok (acc : List Char)
    (hacc : ∀ c ∈ acc, c.isWhitespace = false) :
    ∀ w ∈ flushWord acc, w ≠ [] ∧ ∀ c ∈ w, c.isWhitespace = false := by
  intro w hw
  unfold flushWord at hw
  by_cases h0 : acc = []
  · rw [if_pos h0] at hw
    simp at hw
  · rw [if_neg h0] at hw
    simp at hw
    subst hw
    exact ⟨by simpa using h0, fun c hc => hacc c (List.mem_reverse.mp hc)⟩

/-- Every word the splitter produces is non-empty and whitespace-free. -/
theorem wordsAux_words_ok :
    ∀ (s acc : List Char), (∀ c ∈ acc, c.isWhitespace = false) →
      ∀ w ∈ wordsAux s acc, w ≠ [] ∧ ∀ c ∈ w, c.isWhitespace = false := by
  intro s
  induction s with
  | nil =>
    intro acc hacc w hw
    simp only [wordsAux] at hw
    exact flushWord_ok acc hacc w hw
  | cons a cs ih =>
    intro acc hacc w hw
    simp only [wordsAux] at hw
    by_cases ha : a.isWhitespace = true
    · rw [if_pos ha] at hw
      rcases List.mem_append.mp hw with hl | hr
      · exact flushWord_ok acc hacc w hl
      · exact ih [] (by simp) w hr
    · rw [if_neg ha] at hw
      refine ih (a :: acc) ?_ w hw
      intro d hd
      rcases List.mem_cons.mp hd with rfl | hd'
      · simpa using ha
      · exact hacc d hd'

/-- Characters of produced words come from the input or the accumulator. -/
theorem wordsAux_chars :
    ∀ (s acc w : List Char), w ∈ wordsAux s acc →
      ∀ c ∈ w, c ∈ s ∨ c ∈ acc := by
  intro s
  induction s with
  | nil =>
    intro acc w hw c hc
    simp only [wordsAux] at hw
    unfold flushWord at hw
    by_cases h0 : acc = []
    · rw [if_pos h0] at hw
      simp at hw
    · rw [if_neg h0] at hw
      simp at hw
      subst hw
      exact Or.inr (List.mem_reverse.mp hc)
  | cons a cs ih =>
    intro acc w hw c hc
    simp only [wordsAux] at hw
    by_cases ha : a.isWhitespace = true
    · rw [if_pos ha] at hw
      rcases List.mem_append.mp hw with hl | hr
      · unfold flushWord at hl
        by_cases h0 : acc = []
        · rw [if_pos h0] at hl
          simp at hl
        · rw [if_neg h0] at hl
          simp at hl
          subst hl
          exact Or.inr (List.mem_reverse.mp hc)
      · rcases ih [] w hr c hc with h | h
        · exact Or.inl (List.mem_cons_of_mem a h)
        · simp at h
    · rw [if_neg ha] at hw
      rcases ih (a :: acc) w hw c hc with h | h
      · exact Or.inl (List.mem_cons_of_mem a h)
      · rcases List.mem_cons.mp h with rfl | h'
        · exact Or.inl (List.mem_cons_self _ _)
        · exact Or.inr h'

/-- Characters of a join are spaces or characters of the words. -/
theorem joinWords_chars : ∀ (ws : List (List Char)) (c : Char),
    c ∈ joinWords ws → c = ' ' ∨ ∃ w ∈ ws, c ∈ w := by
  intro ws
  induction ws with
  | nil =>
    intro c hc
    simp [joinWords] at hc
  | cons w ws' ih =>
    intro c hc
    cases ws' with
    | nil => exact Or.inr ⟨w, by simp, by simpa [joinWords] using hc⟩
    | cons w2 rest =>
      have hj : joinWords (w :: w2 :: rest) = w ++ ' ' :: joinWords (w2 :: rest) := rfl
      rw [hj] at hc
      rcases List.mem_append.mp hc with h | h
      · exact Or.inr ⟨w, List.mem_cons_self _ _, h⟩
      · rcases List.mem_cons.mp h with rfl | h'
        · exact Or.inl rfl
        · rcases ih c h' with h'' | ⟨u, hu, hcu⟩
          · exact Or.inl h''
          · exact Or.inr ⟨u, List.mem_cons_of_mem _ hu, hcu⟩

/-- Uppercasing commutes with joining (spaces are fixed by `upChar`). -/
theorem upperL_joinWords : ∀ ws : List (List Char),
    upperL (joinWords ws) = joinWords (ws.map upperL) := by
  intro ws
  induction ws with
  | nil => rfl
  | cons w ws' ih =>
    cases ws' with
    | nil => rfl
    | cons w2 rest =>
      show upperL (w ++ ' ' :: joinWords (w2 :: rest))
          = upperL w ++ ' ' :: joinWords ((w2 :: rest).map upperL)
      simp only [upperL, List.map_append, List.map_cons]
      rw [show upChar ' ' = ' ' from by decide]
      simp only [upperL] at ih
      rw [ih]
      rfl

/-- Uppercasing is idempotent on character lists. -/
theorem upperL_idem (s : List Char) : upperL (upperL s) = upperL s := by
  simp only [upperL, List.map_map]
  apply List.map_congr_left
  intro c _
  exact upChar_idem c

/-- The words used by `normalizeL` are non-empty and whitespace-free. -/
theorem normalizeL_words (s : List Char) :
    ∀ w ∈ wordsL (upperL s), w ≠ [] ∧ ∀ c ∈ w, c.isWhitespace = false :=
  wordsAux_words_ok (upperL s) [] (by simp)

/-- `normalize` is idempotent (§8 of the spec, and the engine for the
base-scheme lemmas below). -/
theorem normalizeL_idem (s : List Char) :
    normalizeL (normalizeL s) = normalizeL s := by
  unfold normalizeL
  rw [upperL_joinWords (wordsL (upperL s))]
  have hmap : (wordsL (upperL s)).map upperL = wordsL (upperL s) := by
    have hpt : ∀ w ∈ wordsL (upperL s), upperL w = w := by
      intro w hw
      have hchars : ∀ c ∈ w, c ∈ upperL s := by
        intro c hc
        rcases wordsAux_chars (upperL s) [] w hw c hc with h | h
        · exact h
        · simp at h
      show w.map upChar = w
      have : w.map upChar = w.map id := by
        apply List.map_congr_left
        intro c hc
        rcases List.mem_map.mp (hchars c hc) with ⟨d, _, hd⟩
        rw [← hd]
        exact upChar_idem d
      rw [this, List.map_id]
    calc (wordsL (upperL s)).map upperL
        = (wordsL (upperL s)).map id := List.map_congr_left hpt
      _ = wordsL (upperL s) := List.map_id _
  rw [hmap]
  rw [wordsL_joinWords (wordsL (upperL s)) (normalizeL_words s)]

/-! ## Dash-freedom -/

/-- No dash glyph occurs in the list. -/
def DashFree (l : List Char) : Prop :=
  ∀ c ∈ l, c ≠ '-' ∧ c ≠ '–' ∧ c ≠ '—'

/-- The dash-to-space pass leaves no dash behind. -/
theorem dashToSpace_dashFree (s : List Char) : DashFree (s.map dashToSpace) := by
  intro c hc
  rcases List.mem_map.mp hc with ⟨d, _, hd⟩
  subst hd
  unfold dashToSpace
  by_cases h : d = '-' ∨ d = '–' ∨ d = '—'
  · rw [if_pos h]
    exact ⟨by decide, by decide, by decide⟩
  · rw [if_neg h]
    push_neg at h
    exact h

/-- On a dash-free list the dash-to-space pass is the identity. -/
theorem dashFree_map_dashToSpace_id (s : List Char) (h : DashFree s) :
    s.map dashToSpace = s := by
  have hmap : s.map dashToSpace = s.map id := by
    apply List.map_congr_left
    intro c hc
    unfold dashToSpace
    rw [if_neg]
    · rfl
    · rcases h c hc with ⟨h1, h2, h3⟩
      intro hor
      rcases hor with h' | h' | h'
      · exact h1 h'
      · exact h2 h'
      · exact h3 h'
  rw [hmap, List.map_id]

/-- Uppercasing preserves dash-freedom. -/
theorem upperL_dashFree (s : List Char) (h : DashFree s) : DashFree (upperL s) := by
  intro c hc
  rcases List.mem_map.mp hc with ⟨d, hd, hdc⟩
  subst hdc
  exact upChar_dash_free d (h d hd)

/-- Normalisation preserves dash-freedom. -/
theorem normalizeL_dashFree (s : List Char) (h : DashFree s) :
    DashFree (normalizeL s) := by
  intro c hc
  rcases joinWords_chars _ c hc with rfl | ⟨w, hw, hcw⟩
  · exact ⟨by decide, by decide, by decide⟩
  · have hmem : c ∈ upperL s := by
      rcases wordsAux_chars (upperL s) [] w hw c hcw with h' | h'
      · exact h'
      · simp at h'
    exact upperL_dashFree s h c hmem

/-! ## Replacement lemmas -/

/-- If the pattern does not occur, `str.replace` is the identity. -/
theorem replaceGo_no_occurrence (pat rep : List Char) :
    ∀ s : List Char, isSubstrL pat s = false → replaceGo pat rep 0 s = s := by
  intro s
  induction s with
  | nil =>
    intro h
    simp only [isSubstrL] at h
    simp only [replaceGo]
    rw [if_neg (by simp [h])]
  | cons c cs ih =>
    intro h
    simp only [isSubstrL, Bool.or_eq_false_iff] at h
    obtain ⟨hpre, hrest⟩ := h
    have hpat : pat ≠ [] := by
      intro hp
      subst hp
      simp [List.isPrefixOf] at hpre
    simp only [replaceGo]
    rw [if_neg (by simp [hpre])]
    rw [if_neg (by simp [hpat])]
    rw [ih hrest]

/-- Deleting occurrences (`replace` with an empty replacement) yields a
subsequence of the input. -/
theorem replaceGo_nil_sublist (pat : List Char) :
    ∀ (s : List Char) (n : Nat), List.Sublist (replaceGo pat [] n s) s
  | [], n => by
    cases n with
    | zero =>
      simp only [replaceGo]
      by_cases hp : pat.isEmpty = true
      · rw [if_pos hp]
      · rw [if_neg hp]
    | succ n =>
      simp only [replaceGo]
      exact List.Sublist.refl []
  | c :: cs, 0 => by
    simp only [replaceGo]
    by_cases h1 : pat ≠ [] ∧ pat.isPrefixOf (c :: cs) = true
    · rw [if_pos h1]
      simp only [List.nil_append]
      exact (replaceGo_nil_sublist pat cs (pat.length - 1)).trans
        (List.sublist_cons_self c cs)
    · rw [if_neg h1]
      by_cases h2 : pat.isEmpty = true
      · rw [if_pos h2]
        simp only [List.nil_append]
        exact List.Sublist.cons₂ c (replaceGo_nil_sublist pat cs 0)
      · rw [if_neg h2]
        exact List.Sublist.cons₂ c (replaceGo_nil_sublist pat cs 0)
  | c :: cs, n + 1 => by
    simp only [replaceGo]
    exact (replaceGo_nil_sublist pat cs n).trans (List.sublist_cons_self c cs)

/-! ## C10 — base-scheme collapse -/

/-- The name with all (cleaned-level) occurrences of the term removed and
re-normalized. -/
def strippedName (t s : String) : String :=
  normalize (pyReplace (clean_text s) t "")

/-- `clean_text` fixes a normalized, dash-free string. -/
theorem clean_text_of_normalized_dashFree (x : List Char) (h : DashFree x) :
    clean_text ⟨normalizeL x⟩ = (⟨normalizeL x⟩ : String) := by
  calc clean_text ⟨normalizeL x⟩
      = ⟨normalizeL ((normalizeL x).map dashToSpace)⟩ := rfl
    _ = ⟨normalizeL (normalizeL x)⟩ := by
        rw [dashFree_map_dashToSpace_id _ (normalizeL_dashFree x h)]
    _ = ⟨normalizeL x⟩ := by rw [normalizeL_idem]

/-- C10 counterexample: remove-terms `["AB", "BC"]`, name `"ABC"` contains
the configured term `"BC"`, but stripping `"AB"` first leaves `"C"`, while
the name with `"BC"` removed is `"A"`, whose base is `"A"`: removing one
term can destroy or expose occurrences of another. -/
theorem base_scheme_collapse_cx :
    pyIn "BC" "ABC" = true
    ∧ extract_base_scheme ⟨["AB", "BC"], [], []⟩ "ABC" = "C"
    ∧ pyReplace "ABC" "BC" "" = "A"
    ∧ extract_base_scheme ⟨["AB", "BC"], [], []⟩ "A" = "A"
    ∧ ("C" : String) ≠ "A" := by decide

/-- C10 (amended): for a rule set with a single remove-term `t`, and any
name `s`, let `s'` be the cleaned name with every occurrence of `t` removed
and re-normalized.  Provided `t` does not occur in `s'` (removal can expose
new occurrences — see the counterexample), `baseScheme(s) = s' =
baseScheme(s')`. -/
theorem base_scheme_collapse (t s : String) (R : RuleSet)
    (hR : R.base_scheme_remove_terms = [t])
    (hno : isSubstrL t.data (strippedName t s).data = false) :
    extract_base_scheme R s = strippedName t s
    ∧ extract_base_scheme R (strippedName t s) = strippedName t s := by
  have hx : DashFree ((clean_text s).data) := by
    show DashFree (normalizeL (s.data.map dashToSpace))
    exact normalizeL_dashFree _ (dashToSpace_dashFree s.data)
  have hdata : (pyReplace (clean_text s) t "").data
      = replaceGo t.data [] 0 ((clean_text s).data) := rfl
  have hrep : DashFree ((pyReplace (clean_text s) t "").data) := by
    rw [hdata]
    intro c hc
    exact hx c ((replaceGo_nil_sublist t.data (clean_text s).data 0).subset hc)
  have h1 : extract_base_scheme R s = strippedName t s := by
    unfold extract_base_scheme strippedName
    rw [hR]
    rfl
  refine ⟨h1, ?_⟩
  have hsn : strippedName t s
      = ⟨normalizeL ((pyReplace (clean_text s) t "").data)⟩ := rfl
  have hclean : clean_text (strippedName t s) = strippedName t s := by
    rw [hsn]
    exact clean_text_of_normalized_dashFree _ hrep
  have hnorep : pyReplace (strippedName t s) t "" = strippedName t s := by
    show (⟨replaceGo t.data [] 0 (strippedName t s).data⟩ : String) = _
    rw [replaceGo_no_occurrence t.data _ _ hno]
  have hnorm : normalize (strippedName t s) = strippedName t s := by
    rw [hsn]
    show (⟨normalizeL (normalizeL _)⟩ : String) = _
    rw [normalizeL_idem]
  unfold extract_base_scheme
  rw [hR]
  show normalize (pyReplace (clean_text (strippedName t s)) t "") = strippedName t s
  rw [hclean, hnorep, hnorm]

/-- Witness for C10: stripping `"PLAN"` from `"X - Plan Y"`. -/
theorem base_scheme_collapse_witness :
    ((⟨["PLAN"], [], []⟩ : RuleSet).base_scheme_remove_terms = ["PLAN"])
    ∧ (isSubstrL "PLAN".data (strippedName "PLAN" "X - Plan Y").data = false)
    ∧ (extract_base_scheme ⟨["PLAN"], [], []⟩ "X - Plan Y"
        = strippedName "PLAN" "X - Plan Y"
      ∧ extract_base_scheme ⟨["PLAN"], [], []⟩ (strippedName "PLAN" "X - Plan Y")
        = strippedName "PLAN" "X - Plan Y") :=
  ⟨rfl, by decide,
   base_scheme_collapse "PLAN" "X - Plan Y" ⟨["PLAN"], [], []⟩ rfl (by decide)⟩

/-! ## Outer-merge characterization -/

/-- Shape of the rows produced by the outer merge: a matched pair, an
unmatched left row, or an unmatched right row. -/
theorem mem_outerMerge {ls ps : List EligRow} {m : MergedRow} :
    m ∈ outerMerge ls ps ↔
      (∃ lr ∈ ls, ∃ pr ∈ ps, pr.key = lr.key ∧ m = mkBoth lr pr)
      ∨ (∃ lr ∈ ls, (∀ pr ∈ ps, pr.key ≠ lr.key) ∧ m = mkLeft lr)
      ∨ (∃ pr ∈ ps, (∀ lr ∈ ls, lr.key ≠ pr.key) ∧ m = mkRight pr) := by
  constructor
  · intro hm
    rcases List.mem_append.mp hm with hm | hm
    · rcases List.mem_flatten.mp hm with ⟨blk, hblk, hmblk⟩
      rcases List.mem_map.mp hblk with ⟨lr, hlr, rfl⟩
      cases hfil : ps.filter (fun pr => pr.key == lr.key) with
      | nil =>
        rw [hfil] at hmblk
        simp at hmblk
        refine Or.inr (Or.inl ⟨lr, hlr, ?_, hmblk⟩)
        intro pr hpr
        have := List.filter_eq_nil_iff.mp hfil pr hpr
        simpa using this
      | cons q qs =>
        rw [hfil] at hmblk
        rcases List.mem_map.mp hmblk with ⟨pr, hpr, rfl⟩
        have hpr' : pr ∈ ps.filter (fun pr => pr.key == lr.key) := by
          rw [hfil]
          exact hpr
        rcases List.mem_filter.mp hpr' with ⟨hps, hkeq⟩
        exact Or.inl ⟨lr, hlr, pr, hps, by simpa using hkeq, rfl⟩
    · rcases List.mem_map.mp hm with ⟨pr, hpr, rfl⟩
      rcases List.mem_filter.mp hpr with ⟨hps, hnone⟩
      refine Or.inr (Or.inr ⟨pr, hps, ?_, rfl⟩)
      intro lr hlr
      have hany : (ls.any (fun lr => lr.key == pr.key)) = false := by
        simpa using hnone
      have := List.any_eq_false.mp hany lr hlr
      simpa using this
  · intro hm
    rcases hm with ⟨lr, hlr, pr, hpr, hkeq, rfl⟩ | ⟨lr, hlr, hnone, rfl⟩
      | ⟨pr, hpr, hnone, rfl⟩
    · apply List.mem_append.mpr
      left
      apply List.mem_flatten.mpr
      refine ⟨_, List.mem_map.mpr ⟨lr, hlr, rfl⟩, ?_⟩
      have hpr' : pr ∈ ps.filter (fun q => q.key == lr.key) :=
        List.mem_filter.mpr ⟨hpr, by simp [hkeq]⟩
      cases hfil : ps.filter (fun q => q.key == lr.key) with
      | nil =>
        rw [hfil] at hpr'
        simp at hpr'
      | cons q qs =>
        rw [hfil] at hpr'
        exact List.mem_map.mpr ⟨pr, hpr', rfl⟩
    · apply List.mem_append.mpr
      left
      apply List.mem_flatten.mpr
      refine ⟨_, List.mem_map.mpr ⟨lr, hlr, rfl⟩, ?_⟩
      cases hfil : ps.filter (fun q => q.key == lr.key) with
      | nil => exact List.mem_singleton_self _
      | cons q qs =>
        exfalso
        have hq : q ∈ ps.filter (fun q => q.key == lr.key) := by
          rw [hfil]
          exact List.mem_cons_self _ _
        rcases List.mem_filter.mp hq with ⟨hqs, hqk⟩
        exact hnone q hqs (by simpa using hqk)
    · apply List.mem_append.mpr
      right
      apply List.mem_map.mpr
      refine ⟨pr, List.mem_filter.mpr ⟨hpr, ?_⟩, rfl⟩
      have hany : (ls.any (fun lr => lr.key == pr.key)) = false := by
        rw [List.any_eq_false]
        intro lr hlr
        simpa using hnone lr hlr
      simp [hany]

/-- Membership in the comparison rows output. -/
theorem mem_rows_iff {l p : PeriodResult} {r : CompRow} :
    r ∈ (runCompare l p).rows ↔
      ∃ m ∈ compKept l.eligible p.eligible, mkCompRow m = r := by
  show r ∈ sortBy rowGeB ((compKept _ _).map mkCompRow) ↔ _
  rw [(perm_sortBy rowGeB _).mem_iff]
  simp

/-- Membership in the latest-period excluded output. -/
theorem mem_latestExcluded_iff {l p : PeriodResult} {e : CompExcl} :
    e ∈ (runCompare l p).latestExcluded ↔
      (∃ x ∈ l.excluded, liftExcl x = e)
      ∨ (∃ m ∈ lZeroRows l.eligible p.eligible, zeroExcl m = e)
      ∨ (∃ m ∈ lncRows l.eligible p.eligible, ncExcl m = e) := by
  show e ∈ l.excluded.map liftExcl ++ (lZeroRows _ _).map zeroExcl
      ++ (lncRows _ _).map ncExcl ↔ _
  simp [or_assoc]

/-- Membership in the past-period excluded output. -/
theorem mem_pastExcluded_iff {l p : PeriodResult} {e : CompExcl} :
    e ∈ (runCompare l p).pastExcluded ↔
      (∃ x ∈ p.excluded, liftExcl x = e)
      ∨ (∃ m ∈ pZeroRows l.eligible p.eligible, zeroExcl m = e)
      ∨ (∃ m ∈ pncRows l.eligible p.eligible, ncExcl m = e) := by
  show e ∈ p.excluded.map liftExcl ++ (pZeroRows _ _).map zeroExcl
      ++ (pncRows _ _).map ncExcl ↔ _
  simp [or_assoc]

/-- With duplicate-free keys, a key determines its row. -/
theorem nodup_key_unique {rows : List EligRow}
    (hnd : (rows.map (fun r => r.key)).Nodup)
    {a b : EligRow} (ha : a ∈ rows) (hb : b ∈ rows) (hk : a.key = b.key) :
    a = b :=
  List.inj_on_of_nodup_map hnd ha hb hk

/-! ## C3 — join completeness -/

/-- The key labels a retained comparison row. -/
def keyInRows (res : CompareResult) (k : String) : Prop :=
  ∃ r ∈ res.rows, r.key = k

/-- The key labels a latest-period excluded row added by the comparison
(extract-level exclusions carry no join key). -/
def keyInLatestExcl (res : CompareResult) (k : String) : Prop :=
  ∃ e ∈ res.latestExcluded, e.key = some k

/-- The key labels a past-period excluded row added by the comparison. -/
def keyInPastExcl (res : CompareResult) (k : String) : Prop :=
  ∃ e ∈ res.pastExcluded, e.key = some k

/-- C3 counterexample: a fund present in both periods with value `0` on both
sides is routed to `latestExcluded` **and** to `pastExcluded` (`l_zero` and
`p_zero` are taken independently from the same `both` set), so its key
appears in two of the three outputs. -/
theorem join_partition_cx :
    runModel ⟨[], [], []⟩ [⟨"K", some 0⟩] [⟨"K", some 0⟩]
      = some ⟨[], [⟨some "K", some "K", "Excluded: zero NAV"⟩],
              [⟨some "K", some "K", "Excluded: zero NAV"⟩]⟩
    ∧ keyInLatestExcl ⟨[], [⟨some "K", some "K", "Excluded: zero NAV"⟩],
        [⟨some "K", some "K", "Excluded: zero NAV"⟩]⟩ "K"
    ∧ keyInPastExcl ⟨[], [⟨some "K", some "K", "Excluded: zero NAV"⟩],
        [⟨some "K", some "K", "Excluded: zero NAV"⟩]⟩ "K"
    ∧ ¬ keyInRows ⟨[], [⟨some "K", some "K", "Excluded: zero NAV"⟩],
        [⟨some "K", some "K", "Excluded: zero NAV"⟩]⟩ "K" := by
  refine ⟨by with_unfolding_all decide, ?_, ?_, ?_⟩
  · exact ⟨⟨some "K", some "K", "Excluded: zero NAV"⟩, by simp, rfl⟩
  · exact ⟨⟨some "K", some "K", "Excluded: zero NAV"⟩, by simp, rfl⟩
  · rintro ⟨r, hr, _⟩
    simp at hr

/-- C3 (amended): every key of `latest.eligible ∪ past.eligible` appears in
at least one of the three outputs; a key never appears both in the
comparison rows and in an excluded output; and it appears in **both**
`latestExcluded` and `pastExcluded` exactly when the fund is present in both
periods with value `0` in both — otherwise it appears in exactly one output.
(Join keys of extracted periods are pairwise distinct, so the duplicate-free
hypotheses match every comparator run.) -/
theorem join_partition (l p : PeriodResult)
    (hl : (l.eligible.map (fun r => r.key)).Nodup)
    (hp : (p.eligible.map (fun r => r.key)).Nodup)
    (k : String)
    (hk : (∃ lr ∈ l.eligible, lr.key = k) ∨ (∃ pr ∈ p.eligible, pr.key = k)) :
    (keyInRows (runCompare l p) k ∨ keyInLatestExcl (runCompare l p) k
      ∨ keyInPastExcl (runCompare l p) k)
    ∧ ¬(keyInRows (runCompare l p) k ∧ keyInLatestExcl (runCompare l p) k)
    ∧ ¬(keyInRows (runCompare l p) k ∧ keyInPastExcl (runCompare l p) k)
    ∧ ((keyInLatestExcl (runCompare l p) k ∧ keyInPastExcl (runCompare l p) k)
        ↔ ((∃ lr ∈ l.eligible, lr.key = k ∧ lr.nav = 0)
           ∧ (∃ pr ∈ p.eligible, pr.key = k ∧ pr.nav = 0))) := by
  by_cases hkl : ∃ lr ∈ l.eligible, lr.key = k
  · by_cases hkp : ∃ pr ∈ p.eligible, pr.key = k
    · -- present in both periods
      obtain ⟨lr, hlrm, hlrk⟩ := hkl
      obtain ⟨pr, hprm, hprk⟩ := hkp
      have huniq : ∀ m ∈ outerMerge l.eligible p.eligible, m.key = k →
          m = mkBoth lr pr := by
        intro m hm hmk
        rcases mem_outerMerge.mp hm with ⟨lr', hlr', pr', hpr', hkeq, rfl⟩
          | ⟨lr', hlr', hnone, rfl⟩ | ⟨pr', hpr', hnone, rfl⟩
        · have hk1 : lr'.key = k := hmk
          have he1 : lr' = lr := nodup_key_unique hl hlr' hlrm (by rw [hk1, hlrk])
          have he2 : pr' = pr := nodup_key_unique hp hpr' hprm
            (by rw [hkeq, hk1, hprk])
          rw [he1, he2]
        · have hmk' : lr'.key = k := hmk
          exact absurd (by rw [hprk, ← hmk']) (fun h => hnone pr hprm h)
        · have hmk' : pr'.key = k := hmk
          exact absurd (by rw [hlrk, ← hmk']) (fun h => hnone lr hlrm h)
      have hBothMem : mkBoth lr pr ∈ outerMerge l.eligible p.eligible :=
        mem_outerMerge.mpr (Or.inl ⟨lr, hlrm, pr, hprm, by rw [hprk, hlrk], rfl⟩)
      have hBothBoth : mkBoth lr pr ∈ bothRows l.eligible p.eligible :=
        List.mem_filter.mpr ⟨hBothMem, by simp [mkBoth]⟩
      have hnotB_of : lr.nav ≠ 0 → ¬ keyInLatestExcl (runCompare l p) k := by
        rintro hlnz ⟨e, he, hek⟩
        rcases mem_latestExcluded_iff.mp he with ⟨x, _, hxe⟩ | ⟨m, hmz, hme⟩
          | ⟨m, hmnc, hme⟩
        · rw [← hxe] at hek
          simp [liftExcl] at hek
        · rw [← hme] at hek
          have hmk : m.key = k := by simpa [zeroExcl] using hek
          rcases List.mem_filter.mp hmz with ⟨hmb, hcond⟩
          rcases List.mem_filter.mp hmb with ⟨hmm, _⟩
          rw [huniq m hmm hmk] at hcond
          simp [mkBoth] at hcond
          exact hlnz hcond
        · rw [← hme] at hek
          have hmk : m.key = k := by simpa [ncExcl] using hek
          rcases List.mem_filter.mp hmnc with ⟨hmm, hcond⟩
          rw [huniq m hmm hmk] at hcond
          simp [mkBoth] at hcond
      have hnotC_of : pr.nav ≠ 0 → ¬ keyInPastExcl (runCompare l p) k := by
        rintro hpnz ⟨e, he, hek⟩
        rcases mem_pastExcluded_iff.mp he with ⟨x, _, hxe⟩ | ⟨m, hmz, hme⟩
          | ⟨m, hmnc, hme⟩
        · rw [← hxe] at hek
          simp [liftExcl] at hek
        · rw [← hme] at hek
          have hmk : m.key = k := by simpa [zeroExcl] using hek
          rcases List.mem_filter.mp hmz with ⟨hmb, hcond⟩
          rcases List.mem_filter.mp hmb with ⟨hmm, _⟩
          rw [huniq m hmm hmk] at hcond
          simp [mkBoth] at hcond
          exact hpnz hcond
        · rw [← hme] at hek
          have hmk : m.key = k := by simpa [ncExcl] using hek
          rcases List.mem_filter.mp hmnc with ⟨hmm, hcond⟩
          rw [huniq m hmm hmk] at hcond
          simp [mkBoth] at hcond
      have hnotA_of : (lr.nav = 0 ∨ pr.nav = 0) → ¬ keyInRows (runCompare l p) k := by
        rintro hz ⟨r, hr, hrk⟩
        rcases mem_rows_iff.mp hr with ⟨m, hmc, hmr⟩
        rw [← hmr] at hrk
        have hmk : m.key = k := by simpa [mkCompRow] using hrk
        rcases List.mem_filter.mp hmc with ⟨hmb, hcond⟩
        rcases List.mem_filter.mp hmb with ⟨hmm, _⟩
        rw [huniq m hmm hmk] at hcond
        simp [mkBoth] at hcond
        rcases hz with hz | hz
        · exact hcond.1 hz
        · exact hcond.2 hz
      have hA_of : lr.nav ≠ 0 → pr.nav ≠ 0 → keyInRows (runCompare l p) k := by
        intro h1 h2
        refine ⟨mkCompRow (mkBoth lr pr),
          mem_rows_iff.mpr ⟨mkBoth lr pr, ?_, rfl⟩, ?_⟩
        · exact List.mem_filter.mpr ⟨hBothBoth, by simp [mkBoth, h1, h2]⟩
        · simpa [mkCompRow, mkBoth] using hlrk
      have hB_of : lr.nav = 0 → keyInLatestExcl (runCompare l p) k := by
        intro h0
        refine ⟨zeroExcl (mkBoth lr pr),
          mem_latestExcluded_iff.mpr (Or.inr (Or.inl ⟨mkBoth lr pr, ?_, rfl⟩)), ?_⟩
        · exact List.mem_filter.mpr ⟨hBothBoth, by simp [mkBoth, h0]⟩
        · simp [zeroExcl, mkBoth, hlrk]
      have hC_of : pr.nav = 0 → keyInPastExcl (runCompare l p) k := by
        intro h0
        refine ⟨zeroExcl (mkBoth lr pr),
          mem_pastExcluded_iff.mpr (Or.inr (Or.inl ⟨mkBoth lr pr, ?_, rfl⟩)), ?_⟩
        · exact List.mem_filter.mpr ⟨hBothBoth, by simp [mkBoth, h0]⟩
        · simp [zeroExcl, mkBoth, hlrk]
      have hRHSl : (∃ lr' ∈ l.eligible, lr'.key = k ∧ lr'.nav = 0) ↔ lr.nav = 0 := by
        constructor
        · rintro ⟨lr', hm', hk', hz'⟩
          have he := nodup_key_unique hl hm' hlrm (by rw [hk', hlrk])
          rwa [he] at hz'
        · intro hz
          exact ⟨lr, hlrm, hlrk, hz⟩
      have hRHSp : (∃ pr' ∈ p.eligible, pr'.key = k ∧ pr'.nav = 0) ↔ pr.nav = 0 := by
        constructor
        · rintro ⟨pr', hm', hk', hz'⟩
          have he := nodup_key_unique hp hm' hprm (by rw [hk', hprk])
          rwa [he] at hz'
        · intro hz
          exact ⟨pr, hprm, hprk, hz⟩
      by_cases hlz : lr.nav = 0 <;> by_cases hpz : pr.nav = 0
      · refine ⟨Or.inr (Or.inl (hB_of hlz)), ?_, ?_, ?_⟩
        · rintro ⟨hA, _⟩
          exact hnotA_of (Or.inl hlz) hA
        · rintro ⟨hA, _⟩
          exact hnotA_of (Or.inl hlz) hA
        · exact ⟨fun _ => ⟨hRHSl.mpr hlz, hRHSp.mpr hpz⟩,
            fun _ => ⟨hB_of hlz, hC_of hpz⟩⟩
      · refine ⟨Or.inr (Or.inl (hB_of hlz)), ?_, ?_, ?_⟩
        · rintro ⟨hA, _⟩
          exact hnotA_of (Or.inl hlz) hA
        · rintro ⟨hA, _⟩
          exact hnotA_of (Or.inl hlz) hA
        · constructor
          · rintro ⟨_, hC⟩
            exact absurd hC (hnotC_of hpz)
          · rintro ⟨_, hRp⟩
            exact absurd (hRHSp.mp hRp) hpz
      · refine ⟨Or.inr (Or.inr (hC_of hpz)), ?_, ?_, ?_⟩
        · rintro ⟨hA, _⟩
          exact hnotA_of (Or.inr hpz) hA
        · rintro ⟨hA, _⟩
          exact hnotA_of (Or.inr hpz) hA
        · constructor
          · rintro ⟨hB, _⟩
            exact absurd hB (hnotB_of hlz)
          · rintro ⟨hRl, _⟩
            exact absurd (hRHSl.mp hRl) hlz
      · refine ⟨Or.inl (hA_of hlz hpz), ?_, ?_, ?_⟩
        · rintro ⟨_, hB⟩
          exact hnotB_of hlz hB
        · rintro ⟨_, hC⟩
          exact hnotC_of hpz hC
        · constructor
          · rintro ⟨hB, _⟩
            exact absurd hB (hnotB_of hlz)
          · rintro ⟨hRl, _⟩
            exact absurd (hRHSl.mp hRl) hlz
    · -- present only in the latest period
      obtain ⟨lr, hlrm, hlrk⟩ := hkl
      have hnoneP : ∀ q ∈ p.eligible, q.key ≠ k := by
        intro q hq hqk
        exact hkp ⟨q, hq, hqk⟩
      have huniq : ∀ m ∈ outerMerge l.eligible p.eligible, m.key = k →
          m = mkLeft lr := by
        intro m hm hmk
        rcases mem_outerMerge.mp hm with ⟨lr', hlr', pr', hpr', hkeq, rfl⟩
          | ⟨lr', hlr', _, rfl⟩ | ⟨pr', hpr', _, rfl⟩
        · have hmk' : lr'.key = k := hmk
          exact absurd (by rw [hkeq]; exact hmk') (hnoneP pr' hpr')
        · have hmk' : lr'.key = k := hmk
          have he1 : lr' = lr := nodup_key_unique hl hlr' hlrm (by rw [hmk', hlrk])
          rw [he1]
        · exact absurd (hmk : pr'.key = k) (hnoneP pr' hpr')
      have hLeftMem : mkLeft lr ∈ outerMerge l.eligible p.eligible := by
        apply mem_outerMerge.mpr
        refine Or.inr (Or.inl ⟨lr, hlrm, ?_, rfl⟩)
        intro q hq hqk
        exact hnoneP q hq (by rw [hqk, hlrk])
      have hB : keyInLatestExcl (runCompare l p) k := by
        refine ⟨ncExcl (mkLeft lr),
          mem_latestExcluded_iff.mpr (Or.inr (Or.inr ⟨mkLeft lr, ?_, rfl⟩)), ?_⟩
        · exact List.mem_filter.mpr ⟨hLeftMem, by simp [mkLeft]⟩
        · simp [ncExcl, mkLeft, hlrk]
      have hnotA : ¬ keyInRows (runCompare l p) k := by
        rintro ⟨r, hr, hrk⟩
        rcases mem_rows_iff.mp hr with ⟨m, hmc, hmr⟩
        rw [← hmr] at hrk
        have hmk : m.key = k := by simpa [mkCompRow] using hrk
        rcases List.mem_filter.mp hmc with ⟨hmb, _⟩
        rcases List.mem_filter.mp hmb with ⟨hmm, hsome⟩
        rw [huniq m hmm hmk] at hsome
        simp [mkLeft] at hsome
      have hnotC : ¬ keyInPastExcl (runCompare l p) k := by
        rintro ⟨e, he, hek⟩
        rcases mem_pastExcluded_iff.mp he with ⟨x, _, hxe⟩ | ⟨m, hmz, hme⟩
          | ⟨m, hmnc, hme⟩
        · rw [← hxe] at hek
          simp [liftExcl] at hek
        · rw [← hme] at hek
          have hmk : m.key = k := by simpa [zeroExcl] using hek
          rcases List.mem_filter.mp hmz with ⟨hmb, _⟩
          rcases List.mem_filter.mp hmb with ⟨hmm, hsome⟩
          rw [huniq m hmm hmk] at hsome
          simp [mkLeft] at hsome
        · rw [← hme] at hek
          have hmk : m.key = k := by simpa [ncExcl] using hek
          rcases List.mem_filter.mp hmnc with ⟨hmm, hcond⟩
          rw [huniq m hmm hmk] at hcond
          simp [mkLeft] at hcond
      refine ⟨Or.inr (Or.inl hB), ?_, ?_, ?_⟩
      · rintro ⟨hA, _⟩
        exact hnotA hA
      · rintro ⟨_, hC⟩
        exact hnotC hC
      · constructor
        · rintro ⟨_, hC⟩
          exact absurd hC hnotC
        · rintro ⟨_, ⟨pr', hpr', hk', _⟩⟩
          exact absurd hk' (hnoneP pr' hpr')
  · by_cases hkp : ∃ pr ∈ p.eligible, pr.key = k
    · -- present only in the past period
      obtain ⟨pr, hprm, hprk⟩ := hkp
      have hnoneL : ∀ q ∈ l.eligible, q.key ≠ k := by
        intro q hq hqk
        exact hkl ⟨q, hq, hqk⟩
      have huniq : ∀ m ∈ outerMerge l.eligible p.eligible, m.key = k →
          m = mkRight pr := by
        intro m hm hmk
        rcases mem_outerMerge.mp hm with ⟨lr', hlr', pr', hpr', hkeq, rfl⟩
          | ⟨lr', hlr', _, rfl⟩ | ⟨pr', hpr', _, rfl⟩
        · exact absurd (hmk : lr'.key = k) (hnoneL lr' hlr')
        · exact absurd (hmk : lr'.key = k) (hnoneL lr' hlr')
        · have hmk' : pr'.key = k := hmk
          have he1 : pr' = pr := nodup_key_unique hp hpr' hprm (by rw [hmk', hprk])
          rw [he1]
      have hRightMem : mkRight pr ∈ outerMerge l.eligible p.eligible := by
        apply mem_outerMerge.mpr
        refine Or.inr (Or.inr ⟨pr, hprm, ?_, rfl⟩)
        intro q hq hqk
        exact hnoneL q hq (by rw [hqk, hprk])
      have hC : keyInPastExcl (runCompare l p) k := by
        refine ⟨ncExcl (mkRight pr),
          mem_pastExcluded_iff.mpr (Or.inr (Or.inr ⟨mkRight pr, ?_, rfl⟩)), ?_⟩
        · exact List.mem_filter.mpr ⟨hRightMem, by simp [mkRight]⟩
        · simp [ncExcl, mkRight, hprk]
      have hnotA : ¬ keyInRows (runCompare l p) k := by
        rintro ⟨r, hr, hrk⟩
        rcases mem_rows_iff.mp hr with ⟨m, hmc, hmr⟩
        rw [← hmr] at hrk
        have hmk : m.key = k := by simpa [mkCompRow] using hrk
        rcases List.mem_filter.mp hmc with ⟨hmb, _⟩
        rcases List.mem_filter.mp hmb with ⟨hmm, hsome⟩
        rw [huniq m hmm hmk] at hsome
        simp [mkRight] at hsome
      have hnotB : ¬ keyInLatestExcl (runCompare l p) k := by
        rintro ⟨e, he, hek⟩
        rcases mem_latestExcluded_iff.mp he with ⟨x, _, hxe⟩ | ⟨m, hmz, hme⟩
          | ⟨m, hmnc, hme⟩
        · rw [← hxe] at hek
          simp [liftExcl] at hek
        · rw [← hme] at hek
          have hmk : m.key = k := by simpa [zeroExcl] using hek
          rcases List.mem_filter.mp hmz with ⟨hmb, _⟩
          rcases List.mem_filter.mp hmb with ⟨hmm, hsome⟩
          rw [huniq m hmm hmk] at hsome
          simp [mkRight] at hsome
        · rw [← hme] at hek
          have hmk : m.key = k := by simpa [ncExcl] using hek
          rcases List.mem_filter.mp hmnc with ⟨hmm, hcond⟩
          rw [huniq m hmm hmk] at hcond
          simp [mkRight] at hcond
      refine ⟨Or.inr (Or.inr hC), ?_, ?_, ?_⟩
      · rintro ⟨hA, _⟩
        exact hnotA hA
      · rintro ⟨hA, _⟩
        exact hnotA hA
      · constructor
        · rintro ⟨hB, _⟩
          exact absurd hB hnotB
        · rintro ⟨⟨lr', hlr', hk', _⟩, _⟩
          exact absurd hk' (hnoneL lr' hlr')
    · rcases hk with hk | hk
      · exact absurd hk hkl
      · exact absurd hk hkp

/-- Witness for C3: a fund present in both periods with non-zero values. -/
theorem join_partition_witness :
    (([(⟨"F", 1, "F", "F"⟩ : EligRow)].map (fun r => r.key)).Nodup
      ∧ ([(⟨"F", 2, "F", "F"⟩ : EligRow)].map (fun r => r.key)).Nodup
      ∧ ((∃ lr ∈ [(⟨"F", 1, "F", "F"⟩ : EligRow)], lr.key = "F")
          ∨ (∃ pr ∈ [(⟨"F", 2, "F", "F"⟩ : EligRow)], pr.key = "F")))
    ∧ ((keyInRows (runCompare ⟨[⟨"F", 1, "F", "F"⟩], [], 1⟩
          ⟨[⟨"F", 2, "F", "F"⟩], [], 1⟩) "F"
        ∨ keyInLatestExcl (runCompare ⟨[⟨"F", 1, "F", "F"⟩], [], 1⟩
            ⟨[⟨"F", 2, "F", "F"⟩], [], 1⟩) "F"
        ∨ keyInPastExcl (runCompare ⟨[⟨"F", 1, "F", "F"⟩], [], 1⟩
            ⟨[⟨"F", 2, "F", "F"⟩], [], 1⟩) "F")
      ∧ ¬(keyInRows (runCompare ⟨[⟨"F", 1, "F", "F"⟩], [], 1⟩
            ⟨[⟨"F", 2, "F", "F"⟩], [], 1⟩) "F"
          ∧ keyInLatestExcl (runCompare ⟨[⟨"F", 1, "F", "F"⟩], [], 1⟩
              ⟨[⟨"F", 2, "F", "F"⟩], [], 1⟩) "F")
      ∧ ¬(keyInRows (runCompare ⟨[⟨"F", 1, "F", "F"⟩], [], 1⟩
            ⟨[⟨"F", 2, "F", "F"⟩], [], 1⟩) "F"
          ∧ keyInPastExcl (runCompare ⟨[⟨"F", 1, "F", "F"⟩], [], 1⟩
              ⟨[⟨"F", 2, "F", "F"⟩], [], 1⟩) "F")
      ∧ ((keyInLatestExcl (runCompare ⟨[⟨"F", 1, "F", "F"⟩], [], 1⟩
              ⟨[⟨"F", 2, "F", "F"⟩], [], 1⟩) "F"
          ∧ keyInPastExcl (runCompare ⟨[⟨"F", 1, "F", "F"⟩], [], 1⟩
              ⟨[⟨"F", 2, "F", "F"⟩], [], 1⟩) "F")
          ↔ ((∃ lr ∈ [(⟨"F", 1, "F", "F"⟩ : EligRow)], lr.key = "F" ∧ lr.nav = 0)
             ∧ (∃ pr ∈ [(⟨"F", 2, "F", "F"⟩ : EligRow)], pr.key = "F" ∧ pr.nav = 0)))) :=
  ⟨⟨by decide, by decide, by decide⟩,
   join_partition ⟨[⟨"F", 1, "F", "F"⟩], [], 1⟩ ⟨[⟨"F", 2, "F", "F"⟩], [], 1⟩
     (by decide) (by decide) "F" (by decide)⟩

/-! ## The join key determines the base

The remaining lemmas show that `Key = normalize(name)` determines
`Base = extract_base_scheme(name)`, hence the eligible frame `extract`
returns has pairwise-distinct join keys (one winner per base, distinct
bases, and equal keys force equal bases).  This grounds the duplicate-free
hypotheses used for the comparator run. -/

/-- Whitespace characters are not dashes. -/
theorem dashToSpace_ws (c : Char) (h : c.isWhitespace = true) :
    dashToSpace c = c := by
  have h4 : ((c = ' ' ∨ c = '\t') ∨ c = '\r') ∨ c = '\n' := by
    simpa [Char.isWhitespace] using h
  rcases h4 with ((rfl | rfl) | rfl) | rfl <;> decide

/-- Uppercasing commutes with the dash-to-space pass. -/
theorem upChar_dashToSpace (c : Char) :
    upChar (dashToSpace c) = dashToSpace (upChar c) := by
  by_cases hd : c = '-' ∨ c = '–' ∨ c = '—'
  · rcases hd with rfl | rfl | rfl <;> decide
  · have h1 : dashToSpace c = c := by
      unfold dashToSpace
      rw [if_neg hd]
    rw [h1]
    push_neg at hd
    have h2 := upChar_dash_free c ⟨hd.1, hd.2.1, hd.2.2⟩
    unfold dashToSpace
    rw [if_neg]
    intro hor
    rcases hor with h' | h' | h'
    · exact h2.1 h'
    · exact h2.2.1 h'
    · exact h2.2.2 h'

/-- List-level commutation of uppercasing and the dash pass. -/
theorem upperL_map_dashToSpace (y : List Char) :
    upperL (y.map dashToSpace) = (upperL y).map dashToSpace := by
  simp only [upperL, List.map_map]
  apply List.map_congr_left
  intro c _
  exact upChar_dashToSpace c

/-- A whitespace separator splits the word computation. -/
theorem wordsAux_append_ws (d : Char) (hd : d.isWhitespace = true)
    (b : List Char) :
    ∀ (a acc : List Char),
      wordsAux (a ++ d :: b) acc = wordsAux a acc ++ wordsAux b [] := by
  intro a
  induction a with
  | nil =>
    intro acc
    exact wordsAux_ws_head d b acc hd
  | cons c a' ih =>
    intro acc
    by_cases hc : c.isWhitespace = true
    · show wordsAux (c :: (a' ++ d :: b)) acc = wordsAux (c :: a') acc ++ _
      rw [wordsAux_ws_head c _ acc hc, wordsAux_ws_head c a' acc hc, ih [],
        List.append_assoc]
    · show wordsAux (c :: (a' ++ d :: b)) acc = wordsAux (c :: a') acc ++ _
      simp only [wordsAux]
      rw [if_neg (by simp [hc]), if_neg (by simp [hc])]
      exact ih (c :: acc)

/-- Splitting across an explicit whitespace separator. -/
theorem wordsL_append_ws (d : Char) (hd : d.isWhitespace = true)
    (a b : List Char) : wordsL (a ++ d :: b) = wordsL a ++ wordsL b :=
  wordsAux_append_ws d hd b a []

/-- The head surviving `dropWhile` fails the predicate. -/
theorem dropWhile_head_false {p : α → Bool} :
    ∀ (l : List α) {d r}, l.dropWhile p = d :: r → p d = false := by
  intro l
  induction l with
  | nil =>
    intro d r h
    simp [List.dropWhile] at h
  | cons a l' ih =>
    intro d r h
    by_cases ha : p a = true
    · rw [List.dropWhile_cons, if_pos ha] at h
      exact ih h
    · rw [List.dropWhile_cons, if_neg ha] at h
      cases h
      simpa using ha

/-- The words of a string after the dash pass are obtained by re-splitting
each original word (dashes can only split words, never fuse them). -/
theorem wordsL_map_dashToSpace_aux :
    ∀ (n : Nat) (y : List Char), y.length ≤ n →
      wordsL (y.map dashToSpace)
        = (wordsL y).flatMap (fun w => wordsL (w.map dashToSpace)) := by
  intro n
  induction n with
  | zero =>
    intro y hy
    have h0 : y = [] := List.eq_nil_of_length_eq_zero (by omega)
    subst h0
    rfl
  | succ n ih =>
    intro y hy
    match y with
    | [] => rfl
    | c :: y' =>
      by_cases hc : c.isWhitespace = true
      · have h1 : wordsL (c :: y') = wordsL y' := by
          unfold wordsL
          rw [wordsAux_ws_head c y' [] hc]
          rfl
        have hdc : dashToSpace c = c := dashToSpace_ws c hc
        have h2 : wordsL ((c :: y').map dashToSpace)
            = wordsL (y'.map dashToSpace) := by
          show wordsL (dashToSpace c :: y'.map dashToSpace) = _
          rw [hdc]
          unfold wordsL
          rw [wordsAux_ws_head c _ [] hc]
          rfl
        rw [h1, h2, ih y' (by simpa using Nat.le_of_succ_le_succ hy)]
      · have hsplit : (c :: y').takeWhile (fun d => !d.isWhitespace)
            ++ (c :: y').dropWhile (fun d => !d.isWhitespace) = c :: y' :=
          List.takeWhile_append_dropWhile _ _
        have hwne : (c :: y').takeWhile (fun d => !d.isWhitespace) ≠ [] := by
          rw [List.takeWhile_cons, if_pos (by simp [hc])]
          simp
        have hwws : ∀ d ∈ (c :: y').takeWhile (fun d => !d.isWhitespace),
            d.isWhitespace = false := by
          intro d hdm
          have := List.mem_takeWhile_imp hdm
          simpa using this
        cases hr : (c :: y').dropWhile (fun d => !d.isWhitespace) with
        | nil =>
          have hy' : c :: y' = (c :: y').takeWhile (fun d => !d.isWhitespace) := by
            conv_lhs => rw [← hsplit]
            rw [hr, List.append_nil]
          rw [hy']
          rw [wordsL_single _ hwne hwws]
          simp
        | cons d r =>
          have hd : d.isWhitespace = true := by
            have := dropWhile_head_false _ hr
            simpa using this
          have hyeq : c :: y'
              = (c :: y').takeWhile (fun d => !d.isWhitespace) ++ d :: r := by
            conv_lhs => rw [← hsplit]
            rw [hr]
          have hrlen : r.length ≤ n := by
            have hlen := congrArg List.length hyeq
            simp [List.length_append] at hlen
            have hw1 : 1 ≤ ((c :: y').takeWhile (fun d => !d.isWhitespace)).length := by
              cases hwcase : (c :: y').takeWhile (fun d => !d.isWhitespace) with
              | nil => exact absurd hwcase hwne
              | cons _ _ => simp
            simp only [List.length_cons] at hy
            omega
          rw [hyeq]
          have hdd : dashToSpace d = d := dashToSpace_ws d hd
          have hL : ((c :: y').takeWhile (fun d => !d.isWhitespace) ++ d :: r).map
              dashToSpace
              = ((c :: y').takeWhile (fun d => !d.isWhitespace)).map dashToSpace
                ++ d :: r.map dashToSpace := by
            simp [hdd]
          rw [hL, wordsL_append_ws d hd, wordsL_append_ws d hd,
            wordsL_single _ hwne hwws, ih r hrlen]
          simp

/-- Wrapper for the previous lemma. -/
theorem wordsL_map_dashToSpace (y : List Char) :
    wordsL (y.map dashToSpace)
      = (wordsL y).flatMap (fun w => wordsL (w.map dashToSpace)) :=
  wordsL_map_dashToSpace_aux y.length y (Nat.le_refl _)

/-- The words of an uppercased string are fixed by further uppercasing. -/
theorem wordsL_upperL_fixed (s : List Char) :
    (wordsL (upperL s)).map upperL = wordsL (upperL s) := by
  have hpt : ∀ w ∈ wordsL (upperL s), upperL w = w := by
    intro w hw
    have hchars : ∀ c ∈ w, c ∈ upperL s := by
      intro c hc
      rcases wordsAux_chars (upperL s) [] w hw c hc with h | h
      · exact h
      · simp at h
    show w.map upChar = w
    have hid : w.map upChar = w.map id := by
      apply List.map_congr_left
      intro c hc
      rcases List.mem_map.mp (hchars c hc) with ⟨d, _, hd⟩
      rw [← hd]
      exact upChar_idem d
    rw [hid, List.map_id]
  calc (wordsL (upperL s)).map upperL
      = (wordsL (upperL s)).map id := List.map_congr_left hpt
    _ = wordsL (upperL s) := List.map_id _

/-- Cleaning a normalized string equals cleaning the original string:
`clean_text` factors through `normalize`. -/
theorem cleanL_normalizeL (x : List Char) :
    normalizeL ((normalizeL x).map dashToSpace)
      = normalizeL (x.map dashToSpace) := by
  have hW := wordsL_joinWords (wordsL (upperL x)) (normalizeL_words x)
  calc normalizeL ((normalizeL x).map dashToSpace)
      = joinWords (wordsL (upperL
          ((joinWords (wordsL (upperL x))).map dashToSpace))) := rfl
    _ = joinWords (wordsL
          ((upperL (joinWords (wordsL (upperL x)))).map dashToSpace)) := by
        rw [upperL_map_dashToSpace]
    _ = joinWords (wordsL
          ((joinWords ((wordsL (upperL x)).map upperL)).map dashToSpace)) := by
        rw [upperL_joinWords]
    _ = joinWords (wordsL
          ((joinWords (wordsL (upperL x))).map dashToSpace)) := by
        rw [wordsL_upperL_fixed]
    _ = joinWords ((wordsL (joinWords (wordsL (upperL x)))).flatMap
          (fun w => wordsL (w.map dashToSpace))) := by
        rw [wordsL_map_dashToSpace]
    _ = joinWords ((wordsL (upperL x)).flatMap
          (fun w => wordsL (w.map dashToSpace))) := by
        rw [hW]
    _ = joinWords (wordsL ((upperL x).map dashToSpace)) := by
        rw [wordsL_map_dashToSpace]
    _ = joinWords (wordsL (upperL (x.map dashToSpace))) := by
        rw [upperL_map_dashToSpace]
    _ = normalizeL (x.map dashToSpace) := rfl

/-- Names with equal join keys have equal cleaned forms. -/
theorem clean_text_congr (n1 n2 : String) (h : normalize n1 = normalize n2) :
    clean_text n1 = clean_text n2 := by
  have hdata : normalizeL n1.data = normalizeL n2.data := by
    have := congrArg String.data h
    simpa [normalize] using this
  show (⟨normalizeL (n1.data.map dashToSpace)⟩ : String)
      = ⟨normalizeL (n2.data.map dashToSpace)⟩
  rw [← cleanL_normalizeL n1.data, ← cleanL_normalizeL n2.data, hdata]

/-- Names with equal join keys have equal bases. -/
theorem extract_base_scheme_congr (R : RuleSet) (n1 n2 : String)
    (h : normalize n1 = normalize n2) :
    extract_base_scheme R n1 = extract_base_scheme R n2 := by
  unfold extract_base_scheme
  rw [clean_text_congr n1 n2 h]

/-- Transfer of duplicate-freedom along a determined map. -/
theorem nodup_map_transfer {α : Type u1} {β : Type u2} {γ : Type u3}
    (f : α → β) (g : α → γ) (l : List α) (hg : (l.map g).Nodup)
    (h : ∀ a ∈ l, ∀ b ∈ l, f a = f b → g a = g b) : (l.map f).Nodup := by
  have h1 : l.Pairwise (fun a b => g a ≠ g b) := List.pairwise_map.mp hg
  have h2 : l.Pairwise (fun a b => f a ≠ f b) := by
    refine h1.imp_of_mem ?_
    intro a b ha hb hgne hfe
    exact hgne (h a ha b hb hfe)
  exact List.pairwise_map.mpr h2

/-- The eligible frame of a successful extraction has pairwise-distinct
join keys: one winner per base, distinct (sorted) bases, and equal keys
force equal bases.  This is what makes the comparator's outer merge a
one-to-one join, grounding the duplicate-free hypotheses above. -/
theorem extract_keys_nodup (R : RuleSet) (recs : List RawRecord)
    (res : PeriodResult) (h : extract R recs = some res) :
    (res.eligible.map (fun r => r.key)).Nodup := by
  rcases extract_eq_some h with ⟨pairs, hne, hcoll, hres⟩
  rcases collectGroups_spec R.priority_ladder
      (withBaseKey R (eligibleRows R (coerce recs)))
      (sortedBases (withBaseKey R (eligibleRows R (coerce recs))))
      (groupOf_sortedBases_ne_nil _) with ⟨ps, hcoll', hbases, _, _, hmemw⟩
  rw [hcoll'] at hcoll
  injection hcoll with hps
  rw [hps] at hbases hmemw
  subst hres
  show ((pairs.map Prod.fst).map (fun r => r.key)).Nodup
  refine nodup_map_transfer (fun r => r.key) (fun r => r.base)
    (pairs.map Prod.fst) ?_ ?_
  · have hmm : (pairs.map Prod.fst).map (fun r => r.base)
        = sortedBases (withBaseKey R (eligibleRows R (coerce recs))) := by
      rw [List.map_map]
      exact hbases
    rw [hmm]
    exact sortedBases_nodup _
  · intro a ha b hb hab
    have haelig : a ∈ withBaseKey R (eligibleRows R (coerce recs)) := by
      rcases List.mem_map.mp ha with ⟨q, hq, rfl⟩
      exact hmemw q hq
    have hbelig : b ∈ withBaseKey R (eligibleRows R (coerce recs)) := by
      rcases List.mem_map.mp hb with ⟨q, hq, rfl⟩
      exact hmemw q hq
    rcases List.mem_map.mp haelig with ⟨ra, _, hae⟩
    rcases List.mem_map.mp hbelig with ⟨rb, _, hbe⟩
    rw [← hae, ← hbe] at hab ⊢
    exact extract_base_scheme_congr R ra.name rb.name hab

end NavCompare
